import Mathlib

/-!
# shadowsocks-update-go: a shallow embedding of `main.go`

The program downloads Surge profiles from a list of providers, cuts the
`[Proxy]` section out of every retrieved document, converts every entry line
of that section to a Shadowsocks `Server` record, filters the records by
keyword and stores them in the GUI configuration.

Text is modelled as `List Char` (a Go string holding valid UTF-8). The Go
library functions the program calls (`regexp`, `strings`, `strconv`) are
modelled by executable definitions that follow their documented behaviour.
-/

set_option autoImplicit false
set_option linter.dupNamespace false

namespace SSUpdate

/-- Go `string`, as its sequence of code points. -/
abbrev Str := List Char

/-! ## `regexp`: a backtracking matcher with leftmost-first semantics

Go's `regexp` returns the match that begins as early as possible and, among
those, the one a backtracking search finds first. The fragment below covers the
operators that occur in the four patterns of `main.go`: literals, the starred
character classes `.*?`, `\s*`, `[\s\S]*?`, concatenation, alternation,
capturing groups and `$`. -/

/-- Regular expressions (the fragment used by `main.go`). A star is applied to a
character class only; `greedy = false` is the lazy star `*?`. -/
inductive Re where
  | eps
  | lit (c : Char)
  | star (cls : Char → Bool) (greedy : Bool)
  | cat (a b : Re)
  | alt (a b : Re)
  | group (i : Nat) (r : Re)
  | eot

/-- Class `\s` of Go's regexp syntax: `[\t\n\f\r ]`. -/
def reSpace (c : Char) : Bool :=
  c = '\t' || c = '\n' || c = '\x0c' || c = '\r' || c = ' '

/-- Class `.` (flag `s` off): any character except the newline. -/
def reDot (c : Char) : Bool := c != '\n'

/-- Class `[\s\S]`: any character. -/
def reAny (_ : Char) : Bool := true

/-- Lazy star `cls*?` followed by the continuation `k`: try `k` first, consume
one more character of the class only when `k` fails. -/
def lazyStar {α : Type} (cls : Char → Bool) (k : Str → Option α) : Str → Option α
  | [] => k []
  | c :: cs =>
    match k (c :: cs) with
    | some r => some r
    | none => if cls c then lazyStar cls k cs else none

/-- Greedy star `cls*` followed by the continuation `k`: consume as many
characters of the class as possible, give them back one by one while `k` fails. -/
def greedyStar {α : Type} (cls : Char → Bool) (k : Str → Option α) : Str → Option α
  | [] => k []
  | c :: cs =>
    if cls c then
      match greedyStar cls k cs with
      | some r => some r
      | none => k (c :: cs)
    else k (c :: cs)

/-- Capture slots: slot `0` is the whole match, slot `i` is group `i`. -/
abbrev Caps := List Str

/-- Backtracking match of `r` at the head of `s`, then the continuation `k` on
the rest of the input. Group `i` records the text its body consumed. -/
def Re.run : Re → Str → Caps → (Str → Caps → Option Caps) → Option Caps
  | .eps, s, caps, k => k s caps
  | .lit c, s, caps, k =>
    match s with
    | x :: xs => if x = c then k xs caps else none
    | [] => none
  | .star cls true, s, caps, k => greedyStar cls (fun t => k t caps) s
  | .star cls false, s, caps, k => lazyStar cls (fun t => k t caps) s
  | .cat a b, s, caps, k => a.run s caps (fun t c => b.run t c k)
  | .alt a b, s, caps, k =>
    match a.run s caps k with
    | some r => some r
    | none => b.run s caps k
  | .group i r, s, caps, k =>
    r.run s caps (fun t c => k t (c.set i (s.take (s.length - t.length))))
  | .eot, s, caps, k =>
    match s with
    | [] => k [] caps
    | _ :: _ => none

/-- Concatenation of a list of expressions. -/
def Re.seq : List Re → Re
  | [] => .eps
  | r :: rs => .cat r (Re.seq rs)

/-- Literal text. -/
def Re.str (s : Str) : Re := Re.seq (s.map Re.lit)

/-- Number of capturing groups (`Regexp.NumSubexp`). -/
def Re.NumSubexp : Re → Nat
  | .group _ r => r.NumSubexp + 1
  | .cat a b => a.NumSubexp + b.NumSubexp
  | .alt a b => a.NumSubexp + b.NumSubexp
  | _ => 0

/-- Match of `re` starting exactly at the head of `s`; slot 0 receives the
matched text. -/
def matchHere (re : Re) (s : Str) : Option Caps :=
  re.run s (List.replicate (re.NumSubexp + 1) [])
    (fun t c => some (c.set 0 (s.take (s.length - t.length))))

/-- `Regexp.FindSubmatch`: the leftmost match and its groups, `[]` (Go `nil`)
when there is none. The start positions are tried from left to right. -/
def FindSubmatch (re : Re) : Str → List Str
  | [] =>
    match matchHere re [] with
    | some c => c
    | none => []
  | x :: s =>
    match matchHere re (x :: s) with
    | some c => c
    | none => FindSubmatch re s

/-! ## `strings` and `strconv` -/

/-- `unicode.IsSpace`. -/
def isSpace (c : Char) : Bool :=
  c = '\t' || c = '\n' || c = '\x0b' || c = '\x0c' || c = '\r' || c = ' ' ||
  c.toNat = 0x85 || c.toNat = 0xA0 || c.toNat = 0x1680 ||
  (0x2000 ≤ c.toNat && c.toNat ≤ 0x200a) ||
  c.toNat = 0x2028 || c.toNat = 0x2029 || c.toNat = 0x202f ||
  c.toNat = 0x205f || c.toNat = 0x3000

/-- `strings.TrimSpace`: leading white space removed, then trailing. -/
def TrimSpace (s : Str) : Str :=
  ((s.dropWhile isSpace).reverse.dropWhile isSpace).reverse

/-- `strings.Split(s, sep)` for a separator of one character. The result is
never empty: `Split "" sep = [""]`. -/
def Split : Str → Char → List Str
  | [], _ => [[]]
  | c :: cs, sep =>
    if c = sep then [] :: Split cs sep
    else
      match Split cs sep with
      | [] => [[c]]
      | h :: t => (c :: h) :: t

/-- `strings.Join(parts, sep)`. -/
def Join (parts : List Str) (sep : Str) : Str := sep.intercalate parts

/-- Digit loop of `strconv.ParseUint(s, 10, 64)`: `none` is a syntax error,
a value above `2^64 - 1` is reported as the range error value `2^64`. -/
def parseDigits : Nat → Str → Option Nat
  | n, [] => some n
  | n, c :: cs =>
    if '0' ≤ c ∧ c ≤ '9' then
      if n * 10 + (c.toNat - 48) ≥ 2 ^ 64 then some (2 ^ 64)
      else parseDigits (n * 10 + (c.toNat - 48)) cs
    else none

/-- `strconv.Atoi` on a 64-bit platform, as the value and the error flag: an
optional sign and decimal digits; a syntax error gives `0`, a value out of the
`int` range gives the nearest bound. -/
def Atoi (s : Str) : Int × Bool :=
  let neg : Bool := s.head? = some '-'
  let ds : Str := if s.head? = some '-' ∨ s.head? = some '+' then s.tail else s
  if ds = [] then (0, true)
  else
    match parseDigits 0 ds with
    | none => (0, true)
    | some n =>
      if neg then
        if n > 2 ^ 63 then (-(2 ^ 63 : Int), true) else (-(n : Int), false)
      else
        if n ≥ 2 ^ 63 then ((2 ^ 63 : Int) - 1, true) else ((n : Int), false)

/-! ## Data types of `main.go` -/

/-- Conf file named update.json. A Go slice that may be `nil` is an `Option`. -/
structure Conf where
  Providers : List Str
  Filter : Option (List Str)

/-- Server type. -/
structure Server where
  Method : Str
  Password : Str
  Plugin : Str
  PluginArgs : Str
  PluginOpts : Str
  Remarks : Str
  Server : Str
  ServerPort : Int
  Timeout : Int
  deriving DecidableEq, Repr

/-- Zero value of `Server` (`var res Server`). -/
def Server.zero : SSUpdate.Server :=
  { Method := [], Password := [], Plugin := [], PluginArgs := [], PluginOpts := [],
    Remarks := [], Server := [], ServerPort := 0, Timeout := 0 }

/-- Result of convertion. -/
structure Result where
  Success : List Str
  Fromat : List Str
  Network : List Str
  deriving DecidableEq, Repr

/-! ## `surgeFromConf` -/

/-- Pattern `\[Proxy\]([\s\S]*?)\[Proxy Group\]`. -/
def proxyRe : Re :=
  Re.seq [Re.str "[Proxy]".toList, .group 1 (.star reAny false), Re.str "[Proxy Group]".toList]

/-- surgeFromConf match surge urls. Returns the slice (`none` is Go's `nil`
slice) and the error (`none` is `nil`). The pattern is a constant that compiles,
so the error branch of `regexp.Compile` is not reachable. -/
def surgeFromConf (conf : Str) : Option (List Str) × Option Str :=
  let submatch := FindSubmatch proxyRe conf
  if submatch.length = 2 then
    (some (Split (submatch.getD 1 []) '\n'), none)
  else
    (some [], some "could not match [Proxy] in profile".toList)

/-! ## `surge2SS` -/

/-- Pattern `(.*?)\s*=\s*custom,(.*?),(.*?),(.*?),(.*?),`. -/
def regex : Re :=
  Re.seq [.group 1 (.star reDot false), .star reSpace true, .lit '=', .star reSpace true,
    Re.str "custom,".toList,
    .group 2 (.star reDot false), .lit ',',
    .group 3 (.star reDot false), .lit ',',
    .group 4 (.star reDot false), .lit ',',
    .group 5 (.star reDot false), .lit ',']

/-- Pattern `obfs-host\s*=\s*(.*?)(?:,|$)`. -/
def obfsRegex : Re :=
  Re.seq [Re.str "obfs-host".toList, .star reSpace true, .lit '=', .star reSpace true,
    .group 1 (.star reDot false), .alt (.lit ',') .eot]

/-- Pattern `obfs\s*=\s*(.*?)(?:,|$)`. -/
def obfsTypeRegex : Re :=
  Re.seq [Re.str "obfs".toList, .star reSpace true, .lit '=', .star reSpace true,
    .group 1 (.star reDot false), .alt (.lit ',') .eot]

/-- Pattern `key\s*=\s*(.*?)(?:,|$)`, the common shape of `obfsRegex` and
`obfsTypeRegex`. -/
def tokenRe (key : Str) : Re :=
  Re.seq [Re.str key, .star reSpace true, .lit '=', .star reSpace true,
    .group 1 (.star reDot false), .alt (.lit ',') .eot]

/-- surge2SS convert surge style url to ss-gui format. -/
def surge2SS (surge : Str) : Server :=
  let res := Server.zero
  let params := FindSubmatch regex surge
  if params.length = 6 then
    let res := { res with Server := TrimSpace (params.getD 2 []) }
    let res := { res with ServerPort := (Atoi (TrimSpace (params.getD 3 []))).1 }
    let res := { res with Password := TrimSpace (params.getD 5 []) }
    let res := { res with Method := TrimSpace (params.getD 4 []) }
    let res := { res with Remarks := TrimSpace (params.getD 1 []) }
    let res := { res with Timeout := 5 }
    let obfsType := FindSubmatch obfsTypeRegex surge
    if obfsType.length = 2 then
      let res := { res with Plugin := "obfs-local".toList }
      let res := { res with PluginOpts := "obfs=".toList ++ TrimSpace (obfsType.getD 1 []) }
      let obfsParams := FindSubmatch obfsRegex surge
      if obfsParams.length = 2 then
        { res with PluginOpts := res.PluginOpts ++ ";obfs-host=".toList ++ TrimSpace (obfsParams.getD 1 []) }
      else res
    else res
  else res

/-! ## `main` -/

/-- Anonymous struct of the field `Hotkey` of `SSGui`. -/
structure Hotkey where
  RegHotkeysAtStartup : Bool
  ServerMoveDown : Str
  ServerMoveUp : Str
  ShowLogs : Str
  SwitchAllowLan : Str
  SwitchSystemProxy : Str
  SwitchSystemProxyMode : Str

/-- Anonymous struct of the field `LogViewer` of `SSGui`. -/
structure LogViewer where
  BackgroundColor : Str
  Font : Str
  TextColor : Str
  ToolbarShown : Bool
  TopMost : Bool
  WrapText : Bool

/-- Anonymous struct of the field `Proxy` of `SSGui`. -/
structure Proxy where
  ProxyPort : Int
  ProxyServer : Str
  ProxyTimeout : Int
  ProxyType : Int
  UseProxy : Bool

/-- SSGui GUI json. The field `Strategy` has the Go type `interface{}`; its
values are kept in a type `σ` the program never inspects. -/
structure SSGui (σ : Type) where
  AutoCheckUpdate : Bool
  AvailabilityStatistics : Bool
  CheckPreRelease : Bool
  Configs : List Server
  Enabled : Bool
  Global : Bool
  Hotkey : Hotkey
  Index : Int
  IsDefault : Bool
  IsVerboseLogging : Bool
  LocalPort : Int
  LogViewer : LogViewer
  PacURL : Str
  PortableMode : Bool
  Proxy : Proxy
  SecureLocalPac : Bool
  ShareOverLan : Bool
  Strategy : σ
  UseOnlinePac : Bool

/-- What the network does for one provider: `http.NewRequest` fails,
`client.Do` fails, `ioutil.ReadAll` fails, or the body is read. -/
inductive Outcome where
  | newRequestFails
  | doFails
  | readAllFails
  | body (b : Str)
  deriving DecidableEq, Repr

/-- One fetch goroutine: the provider url it was started with and what the
network does for it. -/
structure Fetch where
  url : Str
  outcome : Outcome
  deriving DecidableEq, Repr

/-- The variables the goroutines share: `result` and `remotes`. -/
structure Shared where
  result : Result
  remotes : List Str
  deriving DecidableEq, Repr

/-- Body of the goroutine started for `url` (lines 169-190), run as one step on
the shared variables. `none` is a Go panic: when `http.NewRequest` fails it
returns a nil request, and `request.Header.Add` (line 172) runs before the
error is looked at. -/
def goroutine (url : Str) (o : Outcome) (sh : Shared) : Option Shared :=
  match o with
  | .newRequestFails => none
  | .doFails =>
    some { sh with result := { sh.result with Network := sh.result.Network ++ [url] } }
  | .readAllFails => some sh
  | .body b => some { sh with remotes := sh.remotes ++ [b] }

/-- The fetch phase up to `wg.Wait()` when the accesses of each goroutine stay
together: the goroutines listed in the order in which they finish, each one
taken as a single step. The schedules in which accesses of different
goroutines fall in between are those of `interleave`. -/
def fetchAll : List Fetch → Shared → Option Shared
  | [], sh => some sh
  | f :: fs, sh =>
    match goroutine f.url f.outcome sh with
    | none => none
    | some sh1 => fetchAll fs sh1

/-- `regexp.MatchString(pattern, s)` as the program sees it: `none` when the
pattern does not compile, `some m` otherwise. The patterns come from the
configuration file, so the function is a parameter of the model. -/
abbrev Matcher := Str → Str → Option Bool

/-- Loop `for j` over the filters (lines 212-217), from the filters still to be
tried: the record is appended at the first filter that matches. -/
def filterLoop (MatchString : Matcher) : List Str → Server → List Server → List Server
  | [], _, servers => servers
  | f :: fs, res, servers =>
    if (MatchString f res.Remarks).getD false = true then servers ++ [res]
    else filterLoop MatchString fs res servers

/-- `len` of a slice that may be nil. -/
def len {α : Type} (s : Option (List α)) : Nat :=
  match s with
  | none => 0
  | some l => l.length

/-- Loop `for i` over the lines of one section (lines 205-219). -/
def lineLoop (MatchString : Matcher) (filters : Option (List Str)) :
    List Str → List Server → List Server
  | [], servers => servers
  | url :: urls, servers =>
    let res := surge2SS url
    if res.Remarks ≠ [] then
      if len filters ≤ 0 ∨ filters = none then
        lineLoop MatchString filters urls (servers ++ [res])
      else
        lineLoop MatchString filters urls (filterLoop MatchString (filters.getD []) res servers)
    else lineLoop MatchString filters urls servers

/-- Loop `for k` over the retrieved documents (lines 194-220), from index `k`.
`none` is the index-out-of-range panic of `providers[k]`. -/
def remoteLoop (MatchString : Matcher) (providers : List Str) (filters : Option (List Str)) :
    Nat → List Str → Result × List Server → Option (Result × List Server)
  | _, [], st => some st
  | k, remote :: rest, (result, servers) =>
    match surgeFromConf remote with
    | (_, some _) => remoteLoop MatchString providers filters (k + 1) rest (result, servers)
    | (none, none) =>
      match providers[k]? with
      | none => none
      | some p =>
        remoteLoop MatchString providers filters (k + 1) rest
          ({ result with Fromat := result.Fromat ++ [p] }, servers)
    | (some urls, none) =>
      match providers[k]? with
      | none => none
      | some p =>
        remoteLoop MatchString providers filters (k + 1) rest
          ({ result with Success := result.Success ++ [p] },
            lineLoop MatchString filters urls servers)

/-- What a run leaves behind: the report, the final records and the
configuration that is written back. -/
structure Output (σ : Type) where
  result : Result
  servers : List Server
  gui : SSGui σ

/-- Function `main` after both input files have been read: `conf` and `gui` are
their contents, `fetches` the goroutines in the order in which they finish.
`none` is a run that ends in a panic. -/
def main {σ : Type} (MatchString : Matcher) (conf : Conf) (gui : SSGui σ)
    (fetches : List Fetch) : Option (Output σ) :=
  match fetchAll fetches { result := { Success := [], Fromat := [], Network := [] }, remotes := [] } with
  | none => none
  | some sh =>
    match remoteLoop MatchString conf.Providers conf.Filter 0 sh.remotes (sh.result, []) with
    | none => none
    | some (result, servers) =>
      some { result := result, servers := servers, gui := { gui with Configs := servers } }

/-- A run of the program: one goroutine per provider, finishing in any order. -/
def IsRun (conf : Conf) (fetches : List Fetch) : Prop :=
  (fetches.map Fetch.url).Perm conf.Providers

/-! ## Definitions used to state the properties -/

/-- Value of a string of decimal digits. -/
def decimalValue (s : Str) : Nat :=
  s.foldl (fun n c => 10 * n + (c.toNat - 48)) 0

/-- The text is a non-empty string of at most five decimal digits. -/
def IsPortDigits (s : Str) : Prop :=
  1 ≤ s.length ∧ s.length ≤ 5 ∧ ∀ c ∈ s, '0' ≤ c ∧ c ≤ '9'

instance (s : Str) : Decidable (IsPortDigits s) := by
  unfold IsPortDigits
  infer_instance

/-- The entry line `L = ws custom, H, P, M, W, rest` of the spec: label, `=`,
whitespace, the literal `custom,` and four fields closed by a comma each. -/
def entryLine (L ws H P M W rest : Str) : Str :=
  L ++ '=' :: (ws ++ ("custom,".toList ++
    (H ++ ',' :: (P ++ ',' :: (M ++ ',' :: (W ++ ',' :: rest))))))

/-- Spec wording of a token `key=V` at the head of `s`: the text `key`,
optional whitespace, `=`, then `V` running to the next comma or the end. -/
def tokenAt (key : Str) (s : Str) : Option Str :=
  if key.isPrefixOf s then
    let r := (s.drop key.length).dropWhile reSpace
    if r.head? = some '=' then some (r.tail.takeWhile (fun c => c != ',')) else none
  else none

/-- Spec wording of "the line contains a token `key=V`": the value `V` of the
first such token of the line, `none` when the line has none. -/
def firstToken (key : Str) : Str → Option Str
  | [] => tokenAt key []
  | c :: cs =>
    match tokenAt key (c :: cs) with
    | some v => some v
    | none => firstToken key cs

/-- Plugin and plugin options as the spec words them, from the tokens of the line. -/
def specPlugin (line : Str) : Str × Str :=
  match firstToken "obfs".toList line with
  | none => ([], [])
  | some v =>
    match firstToken "obfs-host".toList line with
    | none => ("obfs-local".toList, "obfs=".toList ++ TrimSpace v)
    | some h =>
      ("obfs-local".toList, "obfs=".toList ++ TrimSpace v ++ ";obfs-host=".toList ++ TrimSpace h)

/-- The documents a fetch phase retrieves, in the order of arrival. -/
def retrieved : List Fetch → List Str
  | [] => []
  | f :: fs =>
    match f.outcome with
    | .body b => b :: retrieved fs
    | _ => retrieved fs

/-- The lines of the proxy sections of the documents, document after document;
a document without a section has none. -/
def sectionLines : List Str → List Str
  | [] => []
  | doc :: docs =>
    match surgeFromConf doc with
    | (some urls, none) => urls ++ sectionLines docs
    | _ => sectionLines docs

/-- The filter of the spec on one record: the label is not empty and some
pattern of the list is found in it. -/
def keeps (MatchString : Matcher) (fs : List Str) (r : Server) : Bool :=
  decide (r.Remarks ≠ []) && fs.any (fun f => MatchString f r.Remarks == some true)

/-- A configuration object to run examples with. -/
def guiExample : SSGui Unit :=
  { AutoCheckUpdate := false, AvailabilityStatistics := false, CheckPreRelease := false,
    Configs := [], Enabled := false, Global := false,
    Hotkey := { RegHotkeysAtStartup := false, ServerMoveDown := [], ServerMoveUp := [],
                ShowLogs := [], SwitchAllowLan := [], SwitchSystemProxy := [],
                SwitchSystemProxyMode := [] },
    Index := 0, IsDefault := false, IsVerboseLogging := false, LocalPort := 1080,
    LogViewer := { BackgroundColor := [], Font := [], TextColor := [], ToolbarShown := false,
                   TopMost := false, WrapText := false },
    PacURL := [], PortableMode := true,
    Proxy := { ProxyPort := 0, ProxyServer := [], ProxyTimeout := 3, ProxyType := 0,
               UseProxy := false },
    SecureLocalPac := true, ShareOverLan := false, Strategy := (), UseOnlinePac := false }

/-- `regexp.MatchString` on patterns without metacharacters: the pattern is the
literal text, searched anywhere in `s`. -/
def literalMatchString : Matcher :=
  fun pattern s => some (decide ((FindSubmatch (Re.str pattern) s).length = 1))

/-- The text without its leading sign, if it has one. -/
def stripSign (s : Str) : Str :=
  if s.head? = some '-' ∨ s.head? = some '+' then s.tail else s

/-- The text is an optionally signed, non-empty string of decimal digits. -/
def IsNumeric (s : Str) : Prop :=
  stripSign s ≠ [] ∧ ∀ c ∈ stripSign s, '0' ≤ c ∧ c ≤ '9'

instance (s : Str) : Decidable (IsNumeric s) := by
  unfold IsNumeric
  infer_instance

/-- The digits the text starts with, after its sign. -/
def digitRun (s : Str) : Str :=
  (stripSign s).takeWhile (fun c => decide ('0' ≤ c ∧ c ≤ '9'))

/-- Spec wording of the entry shape at the head of `s`: an `=`, optional
whitespace, the literal `custom,` and at least four further commas. -/
def shapeAt (s : Str) : Bool :=
  s.head? = some '=' &&
    ("custom,".toList.isPrefixOf (s.tail.dropWhile reSpace) &&
      decide (4 ≤ ((s.tail.dropWhile reSpace).drop 7).count ','))

/-- Spec wording of "the line contains the entry shape". -/
def hasEntryShape : Str → Bool
  | [] => false
  | c :: cs => shapeAt (c :: cs) || hasEntryShape cs

/-! ## The fetch phase, access by access

The goroutines append to the shared slices `result.Network` (line 180) and
`remotes` (line 189) with no lock and no channel; `wg.Wait()` only orders them
before the document loop. An assignment `x = append(x, v)` reads `x` and later
writes `x`, and accesses of different goroutines may fall in between. -/

/-- Where a goroutine stands: before its read of the shared slice, between the
read and the write (holding the value it read), or after the write. -/
inductive Pc where
  | ready
  | loaded (tmp : List Str)
  | finished
  deriving DecidableEq, Repr

/-- The next access of the goroutine `f` to the shared variables. `none` is the
panic of line 172. A goroutine whose `ReadAll` fails touches nothing. -/
def access (f : Fetch) (pc : Pc) (sh : Shared) : Option (Pc × Shared) :=
  match pc, f.outcome with
  | .ready, .newRequestFails => none
  | .ready, .readAllFails => some (.finished, sh)
  | .ready, .doFails => some (.loaded sh.result.Network, sh)
  | .ready, .body _ => some (.loaded sh.remotes, sh)
  | .loaded tmp, .doFails =>
    some (.finished, { sh with result := { sh.result with Network := tmp ++ [f.url] } })
  | .loaded tmp, .body b => some (.finished, { sh with remotes := tmp ++ [b] })
  | .loaded _, _ => some (.finished, sh)
  | .finished, _ => some (.finished, sh)

/-- The fetch phase under a schedule: the list names, access after access, the
goroutine (by its position in `fetches`) that runs next. -/
def interleave (fetches : List Fetch) : List Nat → List Pc × Shared → Option (List Pc × Shared)
  | [], st => some st
  | i :: rest, (pcs, sh) =>
    match fetches[i]?, pcs[i]? with
    | some f, some pc =>
      match access f pc sh with
      | none => none
      | some (pc1, sh1) => interleave fetches rest (pcs.set i pc1, sh1)
    | _, _ => interleave fetches rest (pcs, sh)

/-- The shared variables before the goroutines start. -/
def Shared.init : Shared :=
  { result := { Success := [], Fromat := [], Network := [] }, remotes := [] }

/-- `regexp.MatchString` on the pattern `(`, which does not compile, and on
patterns without metacharacters. -/
def sampleMatchString : Matcher :=
  fun pattern s => if pattern = "(".toList then none else literalMatchString pattern s

/-- The part of `main` after `wg.Wait()` (lines 193-223): the document loop over
whatever the fetch phase left in `remotes`, then the assignment
`gui.Configs = servers`. `none` is the index panic of the document loop. -/
def afterFetch {σ : Type} (MatchString : Matcher) (conf : Conf) (gui : SSGui σ)
    (sh : Shared) : Option (Output σ) :=
  match remoteLoop MatchString conf.Providers conf.Filter 0 sh.remotes (sh.result, []) with
  | none => none
  | some (result, servers) =>
    some { result := result, servers := servers, gui := { gui with Configs := servers } }

/-- Function `main` with the fetch phase run access by access: `fetches` lists
the goroutines in the order of the providers, `sched` names the goroutine of
each access. `wg.Wait()` returns when every goroutine has finished; `none` is a
panic, or a schedule that stops before that. -/
def mainSched {σ : Type} (MatchString : Matcher) (conf : Conf) (gui : SSGui σ)
    (fetches : List Fetch) (sched : List Nat) : Option (Output σ) :=
  match interleave fetches sched (List.replicate fetches.length .ready, Shared.init) with
  | none => none
  | some (pcs, sh) =>
    if pcs.all (fun pc => decide (pc = .finished)) = true then
      afterFetch MatchString conf gui sh
    else none

/-- Every field of the configuration `a` other than `Configs` equals the field
of `b`. -/
def SameButConfigs {σ : Type} (a b : SSGui σ) : Prop :=
  a.AutoCheckUpdate = b.AutoCheckUpdate ∧
  a.AvailabilityStatistics = b.AvailabilityStatistics ∧
  a.CheckPreRelease = b.CheckPreRelease ∧
  a.Enabled = b.Enabled ∧
  a.Global = b.Global ∧
  a.Hotkey = b.Hotkey ∧
  a.Index = b.Index ∧
  a.IsDefault = b.IsDefault ∧
  a.IsVerboseLogging = b.IsVerboseLogging ∧
  a.LocalPort = b.LocalPort ∧
  a.LogViewer = b.LogViewer ∧
  a.PacURL = b.PacURL ∧
  a.PortableMode = b.PortableMode ∧
  a.Proxy = b.Proxy ∧
  a.SecureLocalPac = b.SecureLocalPac ∧
  a.ShareOverLan = b.ShareOverLan ∧
  a.Strategy = b.Strategy ∧
  a.UseOnlinePac = b.UseOnlinePac

/-- A configuration object that already holds two proxy records. -/
def guiWithOld : SSGui Unit :=
  { guiExample with
    Configs := [surge2SS "Old-1 = custom, o, 9, m, p,".toList,
                surge2SS "Old-2 = custom, o, 9, m, p,".toList] }

/-- The text denotes a port: decimal digits, with `+` before them or no sign,
whose value lies between 1 and 65535. -/
def DenotesPort (p : Str) : Prop :=
  IsNumeric p ∧ p.head? ≠ some '-' ∧
    1 ≤ decimalValue (stripSign p) ∧ decimalValue (stripSign p) ≤ 65535

instance (p : Str) : Decidable (DenotesPort p) := by
  unfold DenotesPort
  infer_instance

/-! ## The matcher: basic facts -/

section Engine

variable {α : Type}

theorem lazyStar_of_some (cls : Char → Bool) (k : Str → Option α) (s : Str) (r : α)
    (h : k s = some r) : lazyStar cls k s = some r := by
  cases s with
  | nil => simpa [lazyStar] using h
  | cons c cs => simp [lazyStar, h]

theorem lazyStar_skip (cls : Char → Bool) (k : Str → Option α) (u t : Str)
    (hu : ∀ c ∈ u, cls c = true)
    (hk : ∀ v w, u = v ++ w → w ≠ [] → k (w ++ t) = none) :
    lazyStar cls k (u ++ t) = lazyStar cls k t := by
  induction u with
  | nil => rfl
  | cons a u ih =>
    have h1 : k (a :: (u ++ t)) = none := hk [] (a :: u) rfl (by simp)
    have h2 : cls a = true := hu a (by simp)
    have h3 : lazyStar cls k (u ++ t) = lazyStar cls k t :=
      ih (fun c hc => hu c (by simp [hc]))
        (fun v w hvw hw => hk (a :: v) w (by simp [hvw]) hw)
    simp [lazyStar, h1, h2, h3]

theorem lazyStar_some_inv (cls : Char → Bool) (k : Str → Option α) (s : Str) (r : α)
    (h : lazyStar cls k s = some r) :
    ∃ u t, s = u ++ t ∧ (∀ c ∈ u, cls c = true) ∧ k t = some r := by
  induction s with
  | nil => exact ⟨[], [], rfl, by simp, by simpa [lazyStar] using h⟩
  | cons a s ih =>
    rw [lazyStar] at h
    cases hk : k (a :: s) with
    | some r1 =>
      rw [hk] at h
      exact ⟨[], a :: s, rfl, by simp, by rw [hk]; exact h⟩
    | none =>
      rw [hk] at h
      by_cases ha : cls a = true
      · simp only [ha, if_true] at h
        obtain ⟨u, t, hs, hu, hkt⟩ := ih h
        refine ⟨a :: u, t, by simp [hs], ?_, hkt⟩
        intro c hc
        rcases List.mem_cons.mp hc with rfl | hc
        · exact ha
        · exact hu c hc
      · simp [ha] at h

theorem lazyStar_isSome_of_split (cls : Char → Bool) (k : Str → Option α) (u t : Str)
    (hu : ∀ c ∈ u, cls c = true) (hk : (k t).isSome = true) :
    (lazyStar cls k (u ++ t)).isSome = true := by
  induction u with
  | nil =>
    obtain ⟨r, hr⟩ := Option.isSome_iff_exists.mp hk
    simp [lazyStar_of_some cls k t r hr]
  | cons a u ih =>
    have h2 : cls a = true := hu a (by simp)
    have h3 := ih (fun c hc => hu c (by simp [hc]))
    show (lazyStar cls k (a :: (u ++ t))).isSome = true
    rw [lazyStar]
    cases hka : k (a :: (u ++ t)) with
    | some r1 => simp
    | none => simpa [h2] using h3

theorem greedyStar_none (cls : Char → Bool) (k : Str → Option α) (s : Str)
    (hk : ∀ v w, s = v ++ w → (∀ c ∈ v, cls c = true) → k w = none) :
    greedyStar cls k s = none := by
  induction s with
  | nil => simpa [greedyStar] using hk [] [] rfl (by simp)
  | cons a s ih =>
    have h1 : k (a :: s) = none := hk [] (a :: s) rfl (by simp)
    by_cases ha : cls a = true
    · have h2 : greedyStar cls k s = none := by
        apply ih
        intro v w hvw hv
        apply hk (a :: v) w (by simp [hvw])
        intro c hc
        rcases List.mem_cons.mp hc with rfl | hc
        · exact ha
        · exact hv c hc
      simp [greedyStar, ha, h2, h1]
    · simp [greedyStar, ha, h1]

theorem greedyStar_of_some (cls : Char → Bool) (k : Str → Option α) (w t : Str) (r : α)
    (hw : ∀ c ∈ w, cls c = true) (ht : ∀ c, t.head? = some c → cls c = false)
    (hk : k t = some r) : greedyStar cls k (w ++ t) = some r := by
  induction w with
  | nil =>
    cases t with
    | nil => simpa [greedyStar] using hk
    | cons c cs =>
      have hc : cls c = false := ht c rfl
      simp [greedyStar, hc, hk]
  | cons a w ih =>
    have ha : cls a = true := hw a (by simp)
    have h2 := ih (fun c hc => hw c (by simp [hc]))
    simp [greedyStar, ha, h2]

theorem greedyStar_some_inv (cls : Char → Bool) (k : Str → Option α) (s : Str) (r : α)
    (h : greedyStar cls k s = some r) :
    ∃ u t, s = u ++ t ∧ (∀ c ∈ u, cls c = true) ∧ k t = some r := by
  induction s with
  | nil => exact ⟨[], [], rfl, by simp, by simpa [greedyStar] using h⟩
  | cons a s ih =>
    rw [greedyStar] at h
    by_cases ha : cls a = true
    · simp only [ha, if_true] at h
      cases hg : greedyStar cls k s with
      | some r1 =>
        rw [hg] at h
        obtain ⟨u, t, hs, hu, hkt⟩ := ih (by rw [hg, ← Option.some.inj h])
        refine ⟨a :: u, t, by simp [hs], ?_, hkt⟩
        intro c hc
        rcases List.mem_cons.mp hc with rfl | hc
        · exact ha
        · exact hu c hc
      | none =>
        rw [hg] at h
        exact ⟨[], a :: s, rfl, by simp, h⟩
    · simp only [ha] at h
      exact ⟨[], a :: s, rfl, by simp, by simpa using h⟩

end Engine

/-! ## The matcher: expressions -/

section Run

theorem run_cat (a b : Re) (s : Str) (caps : Caps) (k : Str → Caps → Option Caps) :
    (Re.cat a b).run s caps k = a.run s caps (fun t c => b.run t c k) := by
  simp [Re.run]

theorem run_lit_cons (c : Char) (t : Str) (caps : Caps) (k : Str → Caps → Option Caps) :
    (Re.lit c).run (c :: t) caps k = k t caps := by
  simp [Re.run]

theorem run_lit_none (c : Char) (s : Str) (caps : Caps) (k : Str → Caps → Option Caps)
    (h : s.head? ≠ some c) : (Re.lit c).run s caps k = none := by
  cases s with
  | nil => simp [Re.run]
  | cons x xs =>
    have hx : x ≠ c := by
      intro e
      exact h (by simp [e])
    simp [Re.run, hx]

theorem run_lit_some_inv (c : Char) (s : Str) (caps : Caps) (k : Str → Caps → Option Caps)
    (r : Caps) (h : (Re.lit c).run s caps k = some r) :
    ∃ t, s = c :: t ∧ k t caps = some r := by
  cases s with
  | nil => simp [Re.run] at h
  | cons x xs =>
    by_cases hx : x = c
    · subst hx
      exact ⟨xs, rfl, by simpa [Re.run] using h⟩
    · simp [Re.run, hx] at h

theorem run_str_append (p t : Str) (caps : Caps) (k : Str → Caps → Option Caps) :
    (Re.str p).run (p ++ t) caps k = k t caps := by
  induction p with
  | nil => simp [Re.str, Re.seq, Re.run]
  | cons c p ih =>
    have h : (Re.str (c :: p)) = Re.cat (Re.lit c) (Re.str p) := rfl
    rw [h, run_cat]
    show (Re.lit c).run (c :: (p ++ t)) caps _ = _
    rw [run_lit_cons]
    exact ih

theorem run_str_some_inv (p s : Str) (caps : Caps) (k : Str → Caps → Option Caps) (r : Caps)
    (h : (Re.str p).run s caps k = some r) : ∃ t, s = p ++ t ∧ k t caps = some r := by
  induction p generalizing s with
  | nil => exact ⟨s, rfl, by simpa [Re.str, Re.seq, Re.run] using h⟩
  | cons c p ih =>
    have e : (Re.str (c :: p)) = Re.cat (Re.lit c) (Re.str p) := rfl
    rw [e, run_cat] at h
    obtain ⟨t1, hs, h1⟩ := run_lit_some_inv c s caps _ r h
    obtain ⟨t, ht1, h2⟩ := ih t1 h1
    exact ⟨t, by simp [hs, ht1], h2⟩

theorem run_str_none (p s : Str) (caps : Caps) (k : Str → Caps → Option Caps)
    (h : ¬ p <+: s) : (Re.str p).run s caps k = none := by
  cases hr : (Re.str p).run s caps k with
  | none => rfl
  | some r =>
    obtain ⟨t, hs, _⟩ := run_str_some_inv p s caps k r hr
    exact absurd ⟨t, hs.symm⟩ h

theorem run_lazy_group (i : Nat) (cls : Char → Bool) (s : Str) (caps : Caps)
    (k : Str → Caps → Option Caps) :
    (Re.group i (Re.star cls false)).run s caps k =
      lazyStar cls (fun t => k t (caps.set i (s.take (s.length - t.length)))) s := by
  simp [Re.run]

theorem run_greedy (cls : Char → Bool) (s : Str) (caps : Caps)
    (k : Str → Caps → Option Caps) :
    (Re.star cls true).run s caps k = greedyStar cls (fun t => k t caps) s := by
  simp [Re.run]

/-- A lazy group over `u`, when the rest of the pattern fails inside `u` and
succeeds right after it, captures exactly `u`. -/
theorem run_lazy_group_skip (i : Nat) (cls : Char → Bool) (R : Re) (u t : Str) (caps : Caps)
    (k : Str → Caps → Option Caps) (r : Caps)
    (hu : ∀ c ∈ u, cls c = true)
    (hfail : ∀ v w, u = v ++ w → w ≠ [] → ∀ caps1, R.run (w ++ t) caps1 k = none)
    (h : R.run t (caps.set i u) k = some r) :
    (Re.cat (Re.group i (Re.star cls false)) R).run (u ++ t) caps k = some r := by
  rw [run_cat, run_lazy_group, lazyStar_skip cls _ u t hu]
  · apply lazyStar_of_some
    simpa using h
  · intro v w hvw hw
    exact hfail v w hvw hw _

/-- A greedy star over the run `w` of class characters, when the rest of the
pattern succeeds after the run. -/
theorem run_greedy_skip (cls : Char → Bool) (R : Re) (w t : Str) (caps : Caps)
    (k : Str → Caps → Option Caps) (r : Caps)
    (hw : ∀ c ∈ w, cls c = true) (ht : ∀ c, t.head? = some c → cls c = false)
    (h : R.run t caps k = some r) :
    (Re.cat (Re.star cls true) R).run (w ++ t) caps k = some r := by
  rw [run_cat, run_greedy]
  exact greedyStar_of_some cls _ w t r hw ht h

/-- A greedy star followed by a literal outside the class fails when the first
character after the run of class characters is not that literal. -/
theorem run_greedy_lit_none (cls : Char → Bool) (c : Char) (R : Re) (s : Str) (caps : Caps)
    (k : Str → Caps → Option Caps) (hc : cls c = false)
    (h : (s.dropWhile cls).head? ≠ some c) :
    (Re.cat (Re.star cls true) (Re.cat (Re.lit c) R)).run s caps k = none := by
  rw [run_cat, run_greedy]
  apply greedyStar_none
  intro v w hvw hv
  rw [run_cat]
  apply run_lit_none
  intro hw
  apply h
  rw [hvw, List.dropWhile_append_of_pos hv]
  cases w with
  | nil => simp at hw
  | cons x xs =>
    simp only [List.head?_cons, Option.some.injEq] at hw
    subst hw
    simp [List.dropWhile, hc]

theorem run_lit_cat (c : Char) (R : Re) (t : Str) (caps : Caps) (k : Str → Caps → Option Caps) :
    (Re.cat (Re.lit c) R).run (c :: t) caps k = R.run t caps k := by
  rw [run_cat, run_lit_cons]

theorem run_str_cat (p : Str) (R : Re) (t : Str) (caps : Caps) (k : Str → Caps → Option Caps) :
    (Re.cat (Re.str p) R).run (p ++ t) caps k = R.run t caps k := by
  rw [run_cat, run_str_append]

/-- One comma-terminated field: the lazy group `(.*?)` followed by `,`. -/
theorem run_field (i : Nat) (R : Re) (F t : Str) (caps : Caps)
    (k : Str → Caps → Option Caps) (r : Caps)
    (hF : ∀ c ∈ F, c ≠ ',') (hnl : ∀ c ∈ F, c ≠ '\n')
    (h : R.run t (caps.set i F) k = some r) :
    (Re.cat (Re.group i (Re.star reDot false)) (Re.cat (Re.lit ',') R)).run
      (F ++ ',' :: t) caps k = some r := by
  apply run_lazy_group_skip
  · intro c hc
    simpa [reDot] using hnl c hc
  · intro v w hvw hw caps1
    rw [run_cat]
    apply run_lit_none
    cases w with
    | nil => exact absurd rfl hw
    | cons x xs =>
      have hx : x ≠ ',' := hF x (by simp [hvw])
      simpa using hx
  · rw [run_lit_cat]
    exact h

end Run

/-! ## `strings` and `strconv`: basic facts -/

section Strings

theorem isSpace_of_reSpace (c : Char) (h : reSpace c = true) : isSpace c = true := by
  simp only [reSpace, Bool.or_eq_true, decide_eq_true_eq] at h
  rcases h with (((h | h) | h) | h) | h <;> subst h <;> decide

theorem TrimSpace_append_space (s w : Str) (hw : ∀ c ∈ w, isSpace c = true) :
    TrimSpace (s ++ w) = TrimSpace s := by
  unfold TrimSpace
  by_cases hs : ∀ c ∈ s, isSpace c = true
  · have h1 : List.dropWhile isSpace (s ++ w) = [] := by
      rw [List.dropWhile_eq_nil_iff]
      intro c hc
      rcases List.mem_append.mp hc with h | h
      · exact hs c h
      · exact hw c h
    have h2 : List.dropWhile isSpace s = [] := by
      rw [List.dropWhile_eq_nil_iff]
      exact hs
    rw [h1, h2]
  · have h1 : List.dropWhile isSpace (s ++ w) = List.dropWhile isSpace s ++ w := by
      clear hw
      induction s with
      | nil => exact absurd (by simp) hs
      | cons a s ih =>
        by_cases ha : isSpace a = true
        · have hs1 : ¬ ∀ c ∈ s, isSpace c = true := by
            intro h
            apply hs
            intro c hc
            rcases List.mem_cons.mp hc with rfl | hc
            · exact ha
            · exact h c hc
          simp [List.dropWhile, ha, ih hs1]
        · simp [List.dropWhile, ha]
    rw [h1, List.reverse_append]
    have hw1 : ∀ c ∈ w.reverse, isSpace c = true := by
      intro c hc
      exact hw c (List.mem_reverse.mp hc)
    rw [List.dropWhile_append_of_pos hw1]

theorem TrimSpace_space_append (w s : Str) (hw : ∀ c ∈ w, isSpace c = true) :
    TrimSpace (w ++ s) = TrimSpace s := by
  unfold TrimSpace
  rw [List.dropWhile_append_of_pos hw]

theorem TrimSpace_dropWhile_reSpace (s : Str) :
    TrimSpace (s.dropWhile reSpace) = TrimSpace s := by
  conv_rhs => rw [← List.takeWhile_append_dropWhile reSpace s]
  rw [TrimSpace_space_append]
  intro c hc
  exact isSpace_of_reSpace c (List.mem_takeWhile_imp hc)

/-- Every text splits into a part in which each non-empty suffix holds a
character outside the class, and a trailing run of class characters. -/
theorem exists_trailing_split (cls : Char → Bool) (L : Str) :
    ∃ L0 Lw, L = L0 ++ Lw ∧ (∀ c ∈ Lw, cls c = true) ∧
      (∀ v w, L0 = v ++ w → w ≠ [] → ∃ x ∈ w, cls x = false) := by
  induction L with
  | nil => exact ⟨[], [], rfl, by simp, by simp⟩
  | cons a L ih =>
    obtain ⟨L0, Lw, hL, hLw, hL0⟩ := ih
    by_cases h : L0 = [] ∧ cls a = true
    · obtain ⟨h0, ha⟩ := h
      subst h0
      refine ⟨[], a :: Lw, by simp [hL], ?_, by simp⟩
      intro c hc
      rcases List.mem_cons.mp hc with rfl | hc
      · exact ha
      · exact hLw c hc
    · refine ⟨a :: L0, Lw, by simp [hL], hLw, ?_⟩
      intro v w hvw hw
      cases v with
      | nil =>
        simp only [List.nil_append] at hvw
        subst hvw
        by_cases h0 : L0 = []
        · have ha : cls a = false := by
            cases hca : cls a with
            | false => rfl
            | true => exact absurd ⟨h0, hca⟩ h
          exact ⟨a, by simp, ha⟩
        · obtain ⟨x, hx, hcx⟩ := hL0 [] L0 rfl h0
          exact ⟨x, by simp [hx], hcx⟩
      | cons b v =>
        simp only [List.cons_append, List.cons.injEq] at hvw
        exact hL0 v w hvw.2 hw

theorem dropWhile_append_head_mem (cls : Char → Bool) (w t : Str)
    (h : ∃ x ∈ w, cls x = false) :
    ∃ y ∈ w, ((w ++ t).dropWhile cls).head? = some y := by
  induction w with
  | nil => simp at h
  | cons a w ih =>
    by_cases ha : cls a = true
    · obtain ⟨x, hx, hcx⟩ := h
      have hxw : x ∈ w := by
        rcases List.mem_cons.mp hx with rfl | hx
        · rw [ha] at hcx; exact absurd hcx (by simp)
        · exact hx
      obtain ⟨y, hy, hyh⟩ := ih ⟨x, hxw, hcx⟩
      exact ⟨y, by simp [hy], by simpa [List.dropWhile, ha] using hyh⟩
    · exact ⟨a, by simp, by simp [List.dropWhile, ha]⟩

theorem digit_toNat (c : Char) (h : '0' ≤ c ∧ c ≤ '9') : c.toNat - 48 ≤ 9 := by
  obtain ⟨_, h2⟩ := h
  have h3 : c.toNat ≤ '9'.toNat := by
    simpa [Char.le_def, Char.toNat, UInt32.le_def] using h2
  have h4 : '9'.toNat = 57 := by decide
  omega

theorem parseDigits_eq (s : Str) (n : Nat) (hs : ∀ c ∈ s, '0' ≤ c ∧ c ≤ '9')
    (hn : (n + 1) * 10 ^ s.length ≤ 2 ^ 64) :
    parseDigits n s = some (s.foldl (fun n c => 10 * n + (c.toNat - 48)) n) ∧
      s.foldl (fun n c => 10 * n + (c.toNat - 48)) n < (n + 1) * 10 ^ s.length := by
  induction s generalizing n with
  | nil => simp [parseDigits]
  | cons c s ih =>
    have hc := hs c (by simp)
    have hd := digit_toNat c hc
    have hpow : (n + 1) * 10 ^ (s.length + 1) = ((n + 1) * 10) * 10 ^ s.length := by ring
    simp only [List.length_cons] at hn
    rw [hpow] at hn
    have hpos : 0 < 10 ^ s.length := by positivity
    have hn1 : (n * 10 + (c.toNat - 48) + 1) * 10 ^ s.length ≤ 2 ^ 64 := by
      calc (n * 10 + (c.toNat - 48) + 1) * 10 ^ s.length
          ≤ ((n + 1) * 10) * 10 ^ s.length := by
            apply Nat.mul_le_mul_right
            omega
        _ ≤ 2 ^ 64 := hn
    have hlt : n * 10 + (c.toNat - 48) < 2 ^ 64 := by
      calc n * 10 + (c.toNat - 48) < (n * 10 + (c.toNat - 48) + 1) * 1 := by omega
        _ ≤ (n * 10 + (c.toNat - 48) + 1) * 10 ^ s.length := by
            apply Nat.mul_le_mul_left
            exact hpos
        _ ≤ 2 ^ 64 := hn1
    obtain ⟨h1, h2⟩ := ih (n * 10 + (c.toNat - 48)) (fun d hd => hs d (by simp [hd])) hn1
    have e : 10 * n + (c.toNat - 48) = n * 10 + (c.toNat - 48) := by ring
    refine ⟨?_, ?_⟩
    · simp only [parseDigits, hc, and_self, if_true, List.foldl_cons]
      rw [if_neg (by omega), h1, e]
    · simp only [List.foldl_cons, List.length_cons]
      rw [e, hpow]
      calc _ < (n * 10 + (c.toNat - 48) + 1) * 10 ^ s.length := h2
        _ ≤ ((n + 1) * 10) * 10 ^ s.length := by
            apply Nat.mul_le_mul_right
            omega

theorem Atoi_of_digits (s : Str) (h : IsPortDigits s) :
    Atoi s = ((decimalValue s : Int), false) := by
  obtain ⟨h1, h5, hd⟩ := h
  cases s with
  | nil => simp at h1
  | cons c cs =>
    have hc := hd c (by simp)
    have hm : c ≠ '-' := by
      intro e; subst e; exact absurd hc.1 (by decide)
    have hp : c ≠ '+' := by
      intro e; subst e; exact absurd hc.1 (by decide)
    have hbound : (0 + 1) * 10 ^ (c :: cs).length ≤ 2 ^ 64 := by
      calc (0 + 1) * 10 ^ (c :: cs).length = 10 ^ (c :: cs).length := by ring
        _ ≤ 10 ^ 5 := Nat.pow_le_pow_right (by norm_num) h5
        _ ≤ 2 ^ 64 := by norm_num
    obtain ⟨e1, e2⟩ := parseDigits_eq (c :: cs) 0 hd hbound
    have hlt : decimalValue (c :: cs) < 2 ^ 63 := by
      unfold decimalValue
      calc _ < (0 + 1) * 10 ^ (c :: cs).length := e2
        _ = 10 ^ (c :: cs).length := by ring
        _ ≤ 10 ^ 5 := Nat.pow_le_pow_right (by norm_num) h5
        _ ≤ 2 ^ 63 := by norm_num
    unfold Atoi
    simp only [List.head?_cons, Option.some.injEq, hm, hp, or_self, if_false, decide_False,
      reduceCtorEq, e1]
    unfold decimalValue at hlt ⊢
    have hlt2 : ¬ (2 ^ 63 ≤ List.foldl (fun n c => 10 * n + (c.toNat - 48)) 0 (c :: cs)) :=
      Nat.not_le.mpr hlt
    exact if_neg hlt2

end Strings

/-! ## The entry pattern of `surge2SS` -/

section Entry

theorem FindSubmatch_of_matchHere (re : Re) (s : Str) (c : Caps)
    (h : matchHere re s = some c) : FindSubmatch re s = c := by
  cases s with
  | nil => simp [FindSubmatch, h]
  | cons x xs => simp [FindSubmatch, h]

theorem FindSubmatch_skip (re : Re) (u t : Str)
    (h : ∀ v w, u = v ++ w → w ≠ [] → matchHere re (w ++ t) = none) :
    FindSubmatch re (u ++ t) = FindSubmatch re t := by
  induction u with
  | nil => rfl
  | cons a u ih =>
    have h1 : matchHere re (a :: (u ++ t)) = none := h [] (a :: u) rfl (by simp)
    have h2 := ih (fun v w hvw hw => h (a :: v) w (by simp [hvw]) hw)
    simp [FindSubmatch, h1, h2]

theorem regex_NumSubexp : regex.NumSubexp = 5 := by decide

/-- The entry pattern run on an entry line whose label part is `L0` followed by
the whitespace `Lw`: the five groups are `L0` and the four fields. -/
theorem run_regex_entry (L0 Lw ws H P M W rest : Str) (caps : Caps)
    (k : Str → Caps → Option Caps) (r : Caps)
    (hL0 : ∀ v w, L0 = v ++ w → w ≠ [] → ∃ x ∈ w, reSpace x = false)
    (hLeq : ∀ c ∈ L0, c ≠ '=') (hLnl : ∀ c ∈ L0, c ≠ '\n')
    (hLw : ∀ c ∈ Lw, reSpace c = true) (hws : ∀ c ∈ ws, reSpace c = true)
    (hH : ∀ c ∈ H, c ≠ ',') (hHnl : ∀ c ∈ H, c ≠ '\n')
    (hP : ∀ c ∈ P, c ≠ ',') (hPnl : ∀ c ∈ P, c ≠ '\n')
    (hM : ∀ c ∈ M, c ≠ ',') (hMnl : ∀ c ∈ M, c ≠ '\n')
    (hW : ∀ c ∈ W, c ≠ ',') (hWnl : ∀ c ∈ W, c ≠ '\n')
    (hk : k rest (((((caps.set 1 L0).set 2 H).set 3 P).set 4 M).set 5 W) = some r) :
    regex.run (L0 ++ (Lw ++ '=' :: (ws ++ ("custom,".toList ++
      (H ++ ',' :: (P ++ ',' :: (M ++ ',' :: (W ++ ',' :: rest)))))))) caps k = some r := by
  unfold regex
  simp only [Re.seq]
  apply run_lazy_group_skip
  · intro c hc
    simpa [reDot] using hLnl c hc
  · intro v w hvw hw caps1
    apply run_greedy_lit_none
    · decide
    · obtain ⟨y, hy, hyh⟩ := dropWhile_append_head_mem reSpace w
        (Lw ++ '=' :: (ws ++ ("custom,".toList ++
          (H ++ ',' :: (P ++ ',' :: (M ++ ',' :: (W ++ ',' :: rest))))))) (hL0 v w hvw hw)
      rw [hyh]
      intro e
      have hy1 : y ∈ L0 := by simp [hvw, hy]
      exact hLeq y hy1 (Option.some.inj e)
  · apply run_greedy_skip
    · exact hLw
    · intro c hc
      simp only [List.head?_cons, Option.some.injEq] at hc
      subst hc
      decide
    · rw [run_lit_cat]
      apply run_greedy_skip
      · exact hws
      · intro c hc
        have hcu : "custom,".toList = 'c' :: "ustom,".toList := by decide
        rw [hcu] at hc
        simp only [List.cons_append, List.head?_cons, Option.some.injEq] at hc
        subst hc
        decide
      · rw [run_str_cat]
        apply run_field 2 _ H _ _ _ _ hH hHnl
        apply run_field 3 _ P _ _ _ _ hP hPnl
        apply run_field 4 _ M _ _ _ _ hM hMnl
        apply run_field 5 _ W _ _ _ _ hW hWnl
        simpa [Re.run] using hk

theorem FindSubmatch_regex_entry (L0 Lw ws H P M W rest : Str)
    (hL0 : ∀ v w, L0 = v ++ w → w ≠ [] → ∃ x ∈ w, reSpace x = false)
    (hLeq : ∀ c ∈ L0, c ≠ '=') (hLnl : ∀ c ∈ L0, c ≠ '\n')
    (hLw : ∀ c ∈ Lw, reSpace c = true) (hws : ∀ c ∈ ws, reSpace c = true)
    (hH : ∀ c ∈ H, c ≠ ',') (hHnl : ∀ c ∈ H, c ≠ '\n')
    (hP : ∀ c ∈ P, c ≠ ',') (hPnl : ∀ c ∈ P, c ≠ '\n')
    (hM : ∀ c ∈ M, c ≠ ',') (hMnl : ∀ c ∈ M, c ≠ '\n')
    (hW : ∀ c ∈ W, c ≠ ',') (hWnl : ∀ c ∈ W, c ≠ '\n') :
    ∃ whole, FindSubmatch regex (entryLine (L0 ++ Lw) ws H P M W rest) =
      [whole, L0, H, P, M, W] := by
  have hline : entryLine (L0 ++ Lw) ws H P M W rest =
      L0 ++ (Lw ++ '=' :: (ws ++ ("custom,".toList ++
        (H ++ ',' :: (P ++ ',' :: (M ++ ',' :: (W ++ ',' :: rest))))))) := by
    simp [entryLine]
  rw [hline]
  refine ⟨(L0 ++ (Lw ++ '=' :: (ws ++ ("custom,".toList ++
        (H ++ ',' :: (P ++ ',' :: (M ++ ',' :: (W ++ ',' :: rest)))))))).take
      ((L0 ++ (Lw ++ '=' :: (ws ++ ("custom,".toList ++
        (H ++ ',' :: (P ++ ',' :: (M ++ ',' :: (W ++ ',' :: rest)))))))).length - rest.length), ?_⟩
  apply FindSubmatch_of_matchHere
  unfold matchHere
  rw [regex_NumSubexp]
  apply run_regex_entry L0 Lw ws H P M W rest _ _ _ hL0 hLeq hLnl hLw hws hH hHnl hP hPnl
    hM hMnl hW hWnl
  simp only [List.replicate, List.set]

end Entry

/-! ## The token patterns of `surge2SS` -/

section Token

theorem obfsRegex_eq : obfsRegex = tokenRe "obfs-host".toList := rfl

theorem obfsTypeRegex_eq : obfsTypeRegex = tokenRe "obfs".toList := rfl

theorem str_NumSubexp (p : Str) : (Re.str p).NumSubexp = 0 := by
  induction p with
  | nil => rfl
  | cons c p ih =>
    have e : Re.str (c :: p) = Re.cat (Re.lit c) (Re.str p) := rfl
    rw [e]
    simp [Re.NumSubexp, ih]

theorem tokenRe_NumSubexp (key : Str) : (tokenRe key).NumSubexp = 1 := by
  simp [tokenRe, Re.seq, Re.NumSubexp, str_NumSubexp]

theorem dropWhile_head_not (cls : Char → Bool) (s : Str) (c : Char)
    (h : (s.dropWhile cls).head? = some c) : cls c = false := by
  induction s with
  | nil => simp at h
  | cons a s ih =>
    by_cases ha : cls a = true
    · simp only [List.dropWhile, ha] at h
      exact ih h
    · simp only [List.dropWhile, ha] at h
      simp only [List.head?_cons, Option.some.injEq] at h
      subst h
      simpa using ha

/-- The tail `(.*?)(?:,|$)` of a token pattern on text without a newline: the
group is the text up to the first comma. -/
theorem run_value (s : Str) (caps : Caps) (k : Str → Caps → Option Caps)
    (hnl : ∀ c ∈ s, c ≠ '\n')
    (hk : ∀ t c, (k t c).isSome = true) :
    ∃ t, (Re.cat (Re.group 1 (Re.star reDot false)) (Re.cat (Re.alt (Re.lit ',') Re.eot) Re.eps)).run
      s caps k = k t (caps.set 1 (s.takeWhile (fun c => c != ','))) := by
  obtain ⟨r, hr⟩ : ∃ r, (Re.cat (Re.alt (Re.lit ',') Re.eot) Re.eps).run
      (s.dropWhile (fun c => c != ',')) (caps.set 1 (s.takeWhile (fun c => c != ','))) k = some r ∧
      ∃ t, some r = k t (caps.set 1 (s.takeWhile (fun c => c != ','))) := by
    cases hT : s.dropWhile (fun c => c != ',') with
    | nil =>
      obtain ⟨r, hr⟩ := Option.isSome_iff_exists.mp
        (hk [] (caps.set 1 (s.takeWhile (fun c => c != ','))))
      exact ⟨r, by simp [Re.run, hr], [], hr.symm⟩
    | cons x xs =>
      have hx : (fun c => c != ',') x = false := by
        apply dropWhile_head_not (fun c => c != ',') s x
        rw [hT]; rfl
      have hx2 : x = ',' := by simpa using hx
      subst hx2
      obtain ⟨r, hr⟩ := Option.isSome_iff_exists.mp
        (hk xs (caps.set 1 (s.takeWhile (fun c => c != ','))))
      exact ⟨r, by simp [Re.run, hr], xs, hr.symm⟩
  obtain ⟨hrun, t, ht⟩ := hr
  refine ⟨t, ?_⟩
  rw [← ht]
  have hs : s = s.takeWhile (fun c => c != ',') ++ s.dropWhile (fun c => c != ',') :=
    (List.takeWhile_append_dropWhile _ s).symm
  conv_lhs => rw [hs]
  apply run_lazy_group_skip
  · intro c hc
    have : c ∈ s := (List.takeWhile_sublist _).subset hc
    simpa [reDot] using hnl c this
  · intro v w hvw hw caps1
    cases w with
    | nil => exact absurd rfl hw
    | cons x xs =>
      have hx : x ∈ s.takeWhile (fun c => c != ',') := by simp [hvw]
      have hx2 : x ≠ ',' := by simpa using List.mem_takeWhile_imp hx
      simp [Re.run, hx2]
  · exact hrun

theorem matchHere_tokenRe_none (key s : Str) (h : tokenAt key s = none) :
    matchHere (tokenRe key) s = none := by
  unfold matchHere tokenRe
  simp only [Re.seq]
  by_cases hp : key <+: s
  · obtain ⟨s1, hs1⟩ := hp
    subst hs1
    rw [run_str_cat]
    apply run_greedy_lit_none
    · decide
    · intro hh
      have hpre : key.isPrefixOf (key ++ s1) = true := by simp
      simp [tokenAt, hpre, hh] at h
  · rw [run_cat]
    exact run_str_none key s _ _ hp

theorem matchHere_tokenRe_parts (key w1 w2 r2 : Str)
    (hw1 : ∀ c ∈ w1, reSpace c = true) (hw2 : ∀ c ∈ w2, reSpace c = true)
    (hr2 : ∀ c, r2.head? = some c → reSpace c = false) (hnl : ∀ c ∈ r2, c ≠ '\n') :
    ∃ whole, matchHere (tokenRe key) (key ++ (w1 ++ '=' :: (w2 ++ r2))) =
      some [whole, r2.takeWhile (fun c => c != ',')] := by
  unfold matchHere
  rw [tokenRe_NumSubexp]
  generalize hK : (fun (t : Str) (c : Caps) =>
    some (c.set 0 ((key ++ (w1 ++ '=' :: (w2 ++ r2))).take
      ((key ++ (w1 ++ '=' :: (w2 ++ r2))).length - t.length)))) = K
  have hKsome : ∀ t c, (K t c).isSome = true := by
    intro t c
    rw [← hK]
    rfl
  obtain ⟨t, ht⟩ := run_value r2 (List.replicate (1 + 1) []) K hnl hKsome
  refine ⟨(key ++ (w1 ++ '=' :: (w2 ++ r2))).take
      ((key ++ (w1 ++ '=' :: (w2 ++ r2))).length - t.length), ?_⟩
  unfold tokenRe
  simp only [Re.seq]
  rw [run_str_cat]
  apply run_greedy_skip _ _ _ _ _ _ _ hw1
  · intro c hc
    simp only [List.head?_cons, Option.some.injEq] at hc
    subst hc
    decide
  · rw [run_lit_cat]
    apply run_greedy_skip _ _ _ _ _ _ _ hw2 hr2
    rw [ht, ← hK]
    simp [List.replicate, List.set]

theorem matchHere_tokenRe_some (key s V : Str) (hnl : ∀ c ∈ s, c ≠ '\n')
    (h : tokenAt key s = some V) :
    ∃ whole G, matchHere (tokenRe key) s = some [whole, G] ∧ TrimSpace G = TrimSpace V := by
  by_cases hp : key <+: s
  · obtain ⟨s1, hs1⟩ := hp
    subst hs1
    have hpre : key.isPrefixOf (key ++ s1) = true := by simp
    simp only [tokenAt, hpre, if_true, List.drop_left] at h
    by_cases hh : (s1.dropWhile reSpace).head? = some '='
    · simp only [hh, if_true, Option.some.injEq] at h
      -- the text after the key: whitespace, then `=`, whitespace, then the value
      obtain ⟨r1, hr1⟩ : ∃ r1, s1.dropWhile reSpace = '=' :: r1 := by
        cases hd : s1.dropWhile reSpace with
        | nil => rw [hd] at hh; simp at hh
        | cons x xs =>
          rw [hd] at hh
          simp only [List.head?_cons, Option.some.injEq] at hh
          exact ⟨xs, by rw [hh]⟩
      rw [hr1] at h
      simp only [List.tail_cons] at h
      have hs1 : s1 = s1.takeWhile reSpace ++ '=' :: (r1.takeWhile reSpace ++ r1.dropWhile reSpace) := by
        rw [List.takeWhile_append_dropWhile, ← hr1, List.takeWhile_append_dropWhile]
      have hr2nl : ∀ c ∈ r1.dropWhile reSpace, c ≠ '\n' := by
        intro c hc
        have hc1 : c ∈ r1 := (List.dropWhile_suffix _).subset hc
        apply hnl c
        rw [hs1]
        simp [hc1]
      obtain ⟨whole, hm⟩ := matchHere_tokenRe_parts key (s1.takeWhile reSpace)
        (r1.takeWhile reSpace) (r1.dropWhile reSpace)
        (fun c hc => List.mem_takeWhile_imp hc) (fun c hc => List.mem_takeWhile_imp hc)
        (fun c hc => dropWhile_head_not reSpace r1 c hc) hr2nl
      rw [← hs1] at hm
      refine ⟨whole, (r1.dropWhile reSpace).takeWhile (fun c => c != ','), hm, ?_⟩
      rw [← h]
      conv_rhs => rw [← List.takeWhile_append_dropWhile reSpace r1]
      have hw : ∀ c ∈ r1.takeWhile reSpace, (fun c => c != ',') c = true := by
        intro c hc
        have hsp : reSpace c = true := List.mem_takeWhile_imp hc
        have : c ≠ ',' := by
          intro e
          subst e
          exact absurd hsp (by decide)
        simpa using this
      rw [List.takeWhile_append_of_pos hw, TrimSpace_space_append]
      intro c hc
      exact isSpace_of_reSpace c (List.mem_takeWhile_imp hc)
    · simp [hh] at h
  · have hpre : key.isPrefixOf s = false := by
      cases hb : key.isPrefixOf s with
      | false => rfl
      | true => exact absurd (List.isPrefixOf_iff_prefix.mp hb) hp
    simp [tokenAt, hpre] at h

/-- The token pattern and the spec wording of a token agree on text without a
newline, up to the whitespace that `TrimSpace` removes. -/
theorem FindSubmatch_tokenRe (key line : Str) (hnl : ∀ c ∈ line, c ≠ '\n') :
    (firstToken key line = none → FindSubmatch (tokenRe key) line = []) ∧
    (∀ V, firstToken key line = some V →
      ∃ whole G, FindSubmatch (tokenRe key) line = [whole, G] ∧ TrimSpace G = TrimSpace V) := by
  induction line with
  | nil =>
    constructor
    · intro h
      have h1 := matchHere_tokenRe_none key [] (by simpa [firstToken] using h)
      simp [FindSubmatch, h1]
    · intro V h
      obtain ⟨whole, G, hm, hG⟩ := matchHere_tokenRe_some key [] V hnl (by simpa [firstToken] using h)
      exact ⟨whole, G, by simp [FindSubmatch, hm], hG⟩
  | cons a line ih =>
    have ih1 := ih (fun c hc => hnl c (by simp [hc]))
    cases ht : tokenAt key (a :: line) with
    | some V1 =>
      obtain ⟨whole, G, hm, hG⟩ := matchHere_tokenRe_some key (a :: line) V1 hnl ht
      constructor
      · intro h
        simp [firstToken, ht] at h
      · intro V h
        have hV : V1 = V := by simpa [firstToken, ht] using h
        subst hV
        exact ⟨whole, G, by simp [FindSubmatch, hm], hG⟩
    | none =>
      have hm := matchHere_tokenRe_none key (a :: line) ht
      constructor
      · intro h
        have h2 : firstToken key line = none := by simpa [firstToken, ht] using h
        simpa [FindSubmatch, hm] using ih1.1 h2
      · intro V h
        have h2 : firstToken key line = some V := by simpa [firstToken, ht] using h
        obtain ⟨whole, G, hf, hG⟩ := ih1.2 V h2
        exact ⟨whole, G, by simpa [FindSubmatch, hm] using hf, hG⟩

end Token

/-! ## The section pattern of `surgeFromConf` -/

section ProxySection

/-- Captures keep their number of slots through a match. -/
theorem run_length (re : Re) : ∀ (s : Str) (caps : Caps) (k : Str → Caps → Option Caps)
    (res : Caps), (∀ t c r, k t c = some r → r.length = c.length) →
    re.run s caps k = some res → res.length = caps.length := by
  induction re with
  | eps =>
    intro s caps k res hk h
    exact hk s caps res (by simpa [Re.run] using h)
  | lit c =>
    intro s caps k res hk h
    obtain ⟨t, _, ht⟩ := run_lit_some_inv c s caps k res h
    exact hk t caps res ht
  | star cls g =>
    intro s caps k res hk h
    cases g with
    | true =>
      rw [run_greedy] at h
      obtain ⟨u, t, _, _, ht⟩ := greedyStar_some_inv cls _ s res h
      exact hk t caps res ht
    | false =>
      have h1 : lazyStar cls (fun t => k t caps) s = some res := by simpa [Re.run] using h
      obtain ⟨u, t, _, _, ht⟩ := lazyStar_some_inv cls _ s res h1
      exact hk t caps res ht
  | cat a b iha ihb =>
    intro s caps k res hk h
    rw [run_cat] at h
    exact iha s caps _ res (fun t c r hr => ihb t c k r hk hr) h
  | alt a b iha ihb =>
    intro s caps k res hk h
    simp only [Re.run] at h
    cases ha : a.run s caps k with
    | some r =>
      rw [ha] at h
      exact iha s caps k res hk (by rw [ha]; exact h)
    | none =>
      rw [ha] at h
      exact ihb s caps k res hk h
  | group i r ih =>
    intro s caps k res hk h
    simp only [Re.run] at h
    apply ih s caps _ res _ h
    intro t c r1 hr1
    rw [hk t _ r1 hr1, List.length_set]
  | eot =>
    intro s caps k res hk h
    cases s with
    | nil => exact hk [] caps res (by simpa [Re.run] using h)
    | cons x xs => simp [Re.run] at h

theorem matchHere_length (re : Re) (s : Str) (c : Caps) (h : matchHere re s = some c) :
    c.length = re.NumSubexp + 1 := by
  unfold matchHere at h
  have := run_length re s _ _ c (by
    intro t c1 r hr
    simp only [Option.some.injEq] at hr
    rw [← hr, List.length_set]) h
  simpa using this

/-- What `FindSubmatch` returns is `nil` when no position matches, and the
captures of the first position that matches otherwise. -/
theorem FindSubmatch_cases (re : Re) (s : Str) :
    (FindSubmatch re s = [] ∧ ∀ v w, s = v ++ w → matchHere re w = none) ∨
    (∃ v w, s = v ++ w ∧ matchHere re w = some (FindSubmatch re s) ∧
      ∀ v1 w1, v = v1 ++ w1 → w1 ≠ [] → matchHere re (w1 ++ w) = none) := by
  induction s with
  | nil =>
    cases h : matchHere re [] with
    | none =>
      left
      refine ⟨by simp [FindSubmatch, h], ?_⟩
      intro v w hvw
      have hw : w = [] := by
        cases v with
        | nil => simpa using hvw.symm
        | cons a v => simp at hvw
      rw [hw]
      exact h
    | some c =>
      right
      refine ⟨[], [], rfl, by simp [FindSubmatch, h], ?_⟩
      intro v1 w1 hv hw
      cases v1 with
      | nil => exact absurd (by simpa using hv.symm) hw
      | cons a v => simp at hv
  | cons a s ih =>
    cases h : matchHere re (a :: s) with
    | some c =>
      right
      refine ⟨[], a :: s, rfl, by simp [FindSubmatch, h], ?_⟩
      intro v1 w1 hv hw
      cases v1 with
      | nil => exact absurd (by simpa using hv.symm) hw
      | cons a v => simp at hv
    | none =>
      have hf : FindSubmatch re (a :: s) = FindSubmatch re s := by simp [FindSubmatch, h]
      rcases ih with ⟨h0, hall⟩ | ⟨v, w, hs, hm, hfirst⟩
      · left
        refine ⟨by rw [hf, h0], ?_⟩
        intro v w hvw
        cases v with
        | nil =>
          simp only [List.nil_append] at hvw
          rw [← hvw]
          exact h
        | cons b v =>
          simp only [List.cons_append, List.cons.injEq] at hvw
          exact hall v w hvw.2
      · right
        refine ⟨a :: v, w, by simp [hs], by rw [hf]; exact hm, ?_⟩
        intro v1 w1 hv hw
        cases v1 with
        | nil =>
          simp only [List.nil_append] at hv
          rw [← hv, List.cons_append, ← hs]
          exact h
        | cons b v1 =>
          simp only [List.cons_append, List.cons.injEq] at hv
          exact hfirst v1 w1 hv.2 hw

theorem FindSubmatch_length (re : Re) (s : Str) :
    (FindSubmatch re s).length = 0 ∨ (FindSubmatch re s).length = re.NumSubexp + 1 := by
  rcases FindSubmatch_cases re s with ⟨h0, _⟩ | ⟨v, w, _, hm, _⟩
  · left
    rw [h0]
    rfl
  · right
    exact matchHere_length re w _ hm

/-- A text that starts with a character it does not hold again cannot begin
inside `u` and run over the end of `u` into a copy of itself. -/
theorem not_prefix_straddle (p0 : Char) (ptl u rest : Str) (hp : p0 ∉ ptl) (hu : u ≠ [])
    (hin : ¬ (p0 :: ptl) <:+: u) : ¬ (p0 :: ptl) <+: u ++ ((p0 :: ptl) ++ rest) := by
  intro h
  by_cases hle : (p0 :: ptl).length ≤ u.length
  · have h1 : (p0 :: ptl) <+: u :=
      List.prefix_of_prefix_length_le h (List.prefix_append u _) hle
    exact hin h1.isInfix
  · have h2 : u <+: (p0 :: ptl) :=
      List.prefix_of_prefix_length_le (List.prefix_append u _) h (by omega)
    obtain ⟨w, hw⟩ := h2
    rw [← hw, List.prefix_append_right_inj] at h
    have hwne : w ≠ [] := by
      intro e
      subst e
      simp only [List.append_nil] at hw
      rw [hw] at hle
      exact hle (le_refl _)
    cases w with
    | nil => exact hwne rfl
    | cons x w =>
      have hx : x = p0 := by
        obtain ⟨z, hz⟩ := h
        cases u with
        | nil => exact absurd rfl hu
        | cons u0 u1 =>
          simp only [List.cons_append, List.cons.injEq] at hz hw
          rw [hz.1, hw.1]
      subst hx
      cases u with
      | nil => exact hu rfl
      | cons u0 u1 =>
        simp only [List.cons_append, List.cons.injEq] at hw
        apply hp
        rw [← hw.2]
        simp

theorem Split_ne_nil (s : Str) (sep : Char) : Split s sep ≠ [] := by
  induction s with
  | nil => simp [Split]
  | cons c cs ih =>
    by_cases hc : c = sep
    · simp [Split, hc]
    · cases h : Split cs sep with
      | nil => exact absurd h ih
      | cons x xs => simp [Split, hc, h]

theorem Join_Split (s : Str) (sep : Char) : Join (Split s sep) [sep] = s := by
  induction s with
  | nil => simp [Split, Join, List.intercalate]
  | cons c cs ih =>
    cases h : Split cs sep with
    | nil => exact absurd h (Split_ne_nil cs sep)
    | cons x xs =>
      rw [h] at ih
      by_cases hc : c = sep
      · subst hc
        simp only [Split, if_true, h]
        simp only [Join, List.intercalate, List.intersperse, List.flatten_cons, List.nil_append,
          List.singleton_append, List.cons.injEq, true_and] at ih ⊢
        exact ih
      · simp only [Split, hc, if_false, h]
        cases xs with
        | nil =>
          simp only [Join, List.intercalate, List.intersperse, List.flatten_cons,
            List.flatten_nil, List.append_nil, List.cons.injEq, true_and] at ih ⊢
          exact ih
        | cons y ys =>
          simp only [Join, List.intercalate, List.intersperse, List.flatten_cons,
            List.cons_append, List.cons.injEq, true_and] at ih ⊢
          exact ih

theorem Split_no_sep (s : Str) (sep : Char) : ∀ l ∈ Split s sep, sep ∉ l := by
  induction s with
  | nil => simp [Split]
  | cons c cs ih =>
    by_cases hc : c = sep
    · subst hc
      intro l hl
      simp only [Split, if_true, List.mem_cons] at hl
      rcases hl with rfl | hl
      · simp
      · exact ih l hl
    · cases h : Split cs sep with
      | nil => exact absurd h (Split_ne_nil cs sep)
      | cons x xs =>
        rw [h] at ih
        intro l hl
        simp only [Split, hc, if_false, h, List.mem_cons] at hl
        rcases hl with rfl | hl
        · intro hm
          rcases List.mem_cons.mp hm with e | hm
          · exact hc e.symm
          · exact ih x (by simp) hm
        · exact ih l (by simp [hl])

theorem proxyRe_NumSubexp : proxyRe.NumSubexp = 1 := by decide

/-- The section pattern at a start position: it matches exactly when the text
starts with `[Proxy]` and holds `[Proxy Group]` somewhere after it. -/
theorem matchHere_proxyRe_isSome (w : Str) :
    (matchHere proxyRe w).isSome = true ↔
      ∃ b c, w = "[Proxy]".toList ++ (b ++ ("[Proxy Group]".toList ++ c)) := by
  constructor
  · intro h
    obtain ⟨r, hr⟩ := Option.isSome_iff_exists.mp h
    unfold matchHere proxyRe at hr
    simp only [Re.seq] at hr
    rw [run_cat] at hr
    obtain ⟨t1, hw, h1⟩ := run_str_some_inv _ w _ _ r hr
    rw [run_cat, run_lazy_group] at h1
    obtain ⟨u, t2, ht1, _, h2⟩ := lazyStar_some_inv _ _ t1 r h1
    rw [run_cat] at h2
    obtain ⟨t3, ht2, _⟩ := run_str_some_inv _ t2 _ _ r h2
    exact ⟨u, t3, by rw [hw, ht1, ht2]⟩
  · rintro ⟨b, c, hw⟩
    subst hw
    unfold matchHere proxyRe
    simp only [Re.seq]
    rw [run_str_cat, run_cat, run_lazy_group]
    apply lazyStar_isSome_of_split
    · intro _ _
      rfl
    · rw [run_str_cat]
      rfl

/-- The section pattern on a document whose first `[Proxy]` is followed by
`body` and the first `[Proxy Group]` after it: the group is `body`. -/
theorem FindSubmatch_proxyRe (pre body post : Str)
    (hpre : ¬ "[Proxy]".toList <:+: pre) (hbody : ¬ "[Proxy Group]".toList <:+: body) :
    ∃ whole, FindSubmatch proxyRe
      (pre ++ ("[Proxy]".toList ++ (body ++ ("[Proxy Group]".toList ++ post)))) = [whole, body] := by
  have hP : "[Proxy]".toList = '[' :: "Proxy]".toList := by decide
  have hG : "[Proxy Group]".toList = '[' :: "Proxy Group]".toList := by decide
  rw [FindSubmatch_skip]
  · refine ⟨("[Proxy]".toList ++ (body ++ ("[Proxy Group]".toList ++ post))).take
      (("[Proxy]".toList ++ (body ++ ("[Proxy Group]".toList ++ post))).length - post.length), ?_⟩
    apply FindSubmatch_of_matchHere
    unfold matchHere
    rw [proxyRe_NumSubexp]
    unfold proxyRe
    simp only [Re.seq]
    rw [run_str_cat]
    apply run_lazy_group_skip
    · intro _ _
      rfl
    · intro v w hvw hw caps1
      rw [run_cat]
      apply run_str_none
      rw [hG]
      apply not_prefix_straddle _ _ _ _ (by decide) hw
      rw [← hG]
      intro hin
      apply hbody
      rw [hvw]
      exact hin.trans (List.infix_append' v w [] |> fun h => by simpa using h)
    · rw [run_str_cat]
      simp [Re.run, List.replicate, List.set]
  · intro v w hvw hw
    unfold matchHere proxyRe
    simp only [Re.seq]
    rw [run_cat]
    apply run_str_none
    rw [hP]
    apply not_prefix_straddle _ _ _ _ (by decide) hw
    rw [← hP]
    intro hin
    apply hpre
    rw [hvw]
    exact hin.trans (List.infix_append' v w [] |> fun h => by simpa using h)

end ProxySection

/-! ## The loops of `main` -/

section MainLoops

theorem filterLoop_eq (M : Matcher) (fs : List Str) (res : Server) (servers : List Server) :
    filterLoop M fs res servers =
      if fs.any (fun f => M f res.Remarks == some true) = true then servers ++ [res]
      else servers := by
  induction fs with
  | nil => simp [filterLoop]
  | cons f fs ih =>
    cases hm : M f res.Remarks with
    | none => simp [filterLoop, hm, ih]
    | some b =>
      cases b with
      | true => simp [filterLoop, hm]
      | false => simp [filterLoop, hm, ih]

/-- The line loop with a non-empty filter list keeps, in order, the records
with a label in which some pattern is found. -/
theorem lineLoop_filters (M : Matcher) (fs : List Str) (hfs : fs ≠ []) (lines : List Str)
    (servers : List Server) :
    lineLoop M (some fs) lines servers =
      servers ++ (lines.map surge2SS).filter (keeps M fs) := by
  have hlen : ¬ (len (some fs) ≤ 0 ∨ some fs = none) := by
    cases fs with
    | nil => exact absurd rfl hfs
    | cons f fs => simp [len]
  induction lines generalizing servers with
  | nil => simp [lineLoop]
  | cons l lines ih =>
    by_cases hr : (surge2SS l).Remarks = []
    · simp [lineLoop, hr, ih, keeps]
    · rw [lineLoop]
      simp only [hr, ne_eq, not_false_eq_true, if_true, hlen, if_false, Option.getD_some]
      rw [ih, filterLoop_eq]
      by_cases hk : fs.any (fun f => M f (surge2SS l).Remarks == some true) = true
      · simp [hk, keeps, hr]
      · simp [hk, keeps, hr]

/-- The line loop without filters keeps, in order, the records with a label. -/
theorem lineLoop_nofilter (M : Matcher) (filters : Option (List Str))
    (hf : filters = none ∨ filters = some []) (lines : List Str) (servers : List Server) :
    lineLoop M filters lines servers =
      servers ++ (lines.map surge2SS).filter (fun r => decide (r.Remarks ≠ [])) := by
  have hlen : len filters ≤ 0 ∨ filters = none := by
    rcases hf with h | h
    · right; exact h
    · left; rw [h]; simp [len]
  induction lines generalizing servers with
  | nil => simp [lineLoop]
  | cons l lines ih =>
    by_cases hr : (surge2SS l).Remarks = []
    · simp [lineLoop, hr, ih]
    · rw [lineLoop]
      simp only [hr, ne_eq, not_false_eq_true, if_true, hlen]
      rw [ih]
      simp [hr]

/-- The line loop only appends to the records it starts with, and what it
appends does not depend on them. -/
theorem lineLoop_acc (M : Matcher) (filters : Option (List Str)) (lines : List Str)
    (servers : List Server) :
    lineLoop M filters lines servers = servers ++ lineLoop M filters lines [] := by
  by_cases hf : filters = none ∨ filters = some []
  · rw [lineLoop_nofilter M filters hf lines servers, lineLoop_nofilter M filters hf lines []]
    simp
  · cases filters with
    | none => exact absurd (Or.inl rfl) hf
    | some fs =>
      have hfs : fs ≠ [] := by
        intro e
        exact hf (Or.inr (by rw [e]))
      rw [lineLoop_filters M fs hfs lines servers, lineLoop_filters M fs hfs lines []]
      simp

theorem lineLoop_append (M : Matcher) (filters : Option (List Str)) (l1 l2 : List Str)
    (servers : List Server) :
    lineLoop M filters (l1 ++ l2) servers =
      lineLoop M filters l2 (lineLoop M filters l1 servers) := by
  induction l1 generalizing servers with
  | nil => rfl
  | cons l l1 ih =>
    simp only [List.cons_append, lineLoop]
    split_ifs <;> exact ih _

theorem lineLoop_mem (M : Matcher) (filters : Option (List Str)) (lines : List Str)
    (r : Server) (h : r ∈ lineLoop M filters lines []) : ∃ l ∈ lines, r = surge2SS l := by
  by_cases hf : filters = none ∨ filters = some []
  · rw [lineLoop_nofilter M filters hf lines []] at h
    simp only [List.nil_append, List.mem_filter, List.mem_map] at h
    obtain ⟨⟨l, hl, e⟩, _⟩ := h
    exact ⟨l, hl, e.symm⟩
  · cases filters with
    | none => exact absurd (Or.inl rfl) hf
    | some fs =>
      have hfs : fs ≠ [] := by
        intro e
        exact hf (Or.inr (by rw [e]))
      rw [lineLoop_filters M fs hfs lines []] at h
      simp only [List.nil_append, List.mem_filter, List.mem_map] at h
      obtain ⟨⟨l, hl, e⟩, _⟩ := h
      exact ⟨l, hl, e.symm⟩

/-- `surgeFromConf` returns either a section without an error, or the empty
slice with an error; the slice is never nil. -/
theorem surgeFromConf_cases (d : Str) :
    (∃ lines, surgeFromConf d = (some lines, none)) ∨
    (∃ e, surgeFromConf d = (some [], some e)) := by
  unfold surgeFromConf
  by_cases h : (FindSubmatch proxyRe d).length = 2
  · left
    exact ⟨Split ((FindSubmatch proxyRe d).getD 1 []) '\n', by rw [if_pos h]⟩
  · right
    exact ⟨"could not match [Proxy] in profile".toList, by rw [if_neg h]⟩

theorem sectionLines_append (d1 d2 : List Str) :
    sectionLines (d1 ++ d2) = sectionLines d1 ++ sectionLines d2 := by
  induction d1 with
  | nil => rfl
  | cons d d1 ih =>
    rcases surgeFromConf_cases d with ⟨lines, h⟩ | ⟨e, h⟩
    · simp [sectionLines, h, ih]
    · simp [sectionLines, h, ih]

theorem sectionLines_mem (docs : List Str) (l : Str) (h : l ∈ sectionLines docs) :
    ∃ d ∈ docs, ∃ lines, surgeFromConf d = (some lines, none) ∧ l ∈ lines := by
  induction docs with
  | nil => simp [sectionLines] at h
  | cons d docs ih =>
    rcases surgeFromConf_cases d with ⟨lines, hd⟩ | ⟨e, hd⟩
    · simp only [sectionLines, hd, List.mem_append] at h
      rcases h with h | h
      · exact ⟨d, by simp, lines, hd, h⟩
      · obtain ⟨d1, hd1, r⟩ := ih h
        exact ⟨d1, by simp [hd1], r⟩
    · simp only [sectionLines, hd] at h
      obtain ⟨d1, hd1, r⟩ := ih h
      exact ⟨d1, by simp [hd1], r⟩

theorem retrieved_append (f1 f2 : List Fetch) :
    retrieved (f1 ++ f2) = retrieved f1 ++ retrieved f2 := by
  induction f1 with
  | nil => rfl
  | cons f f1 ih =>
    cases ho : f.outcome <;> simp [retrieved, ho, ih]

theorem retrieved_mem (fetches : List Fetch) (d : Str) (h : d ∈ retrieved fetches) :
    ∃ f ∈ fetches, f.outcome = .body d := by
  induction fetches with
  | nil => simp [retrieved] at h
  | cons f fetches ih =>
    cases ho : f.outcome with
    | body b =>
      simp only [retrieved, ho, List.mem_cons] at h
      rcases h with h | h
      · exact ⟨f, by simp, by rw [ho, h]⟩
      · obtain ⟨g, hg, e⟩ := ih h
        exact ⟨g, by simp [hg], e⟩
    | newRequestFails =>
      simp only [retrieved, ho] at h
      obtain ⟨g, hg, e⟩ := ih h
      exact ⟨g, by simp [hg], e⟩
    | doFails =>
      simp only [retrieved, ho] at h
      obtain ⟨g, hg, e⟩ := ih h
      exact ⟨g, by simp [hg], e⟩
    | readAllFails =>
      simp only [retrieved, ho] at h
      obtain ⟨g, hg, e⟩ := ih h
      exact ⟨g, by simp [hg], e⟩

theorem retrieved_length (fetches : List Fetch) :
    (retrieved fetches).length ≤ fetches.length := by
  induction fetches with
  | nil => simp [retrieved]
  | cons f fetches ih =>
    cases ho : f.outcome <;> simp [retrieved, ho] <;> omega

/-- The fetch phase ends without a panic when every request is built; it
appends the retrieved documents and touches only the network group. -/
theorem fetchAll_some (fetches : List Fetch) (sh : Shared)
    (hreq : ∀ f ∈ fetches, f.outcome ≠ .newRequestFails) :
    ∃ sh1, fetchAll fetches sh = some sh1 ∧ sh1.remotes = sh.remotes ++ retrieved fetches ∧
      sh1.result.Success = sh.result.Success ∧ sh1.result.Fromat = sh.result.Fromat := by
  induction fetches generalizing sh with
  | nil => exact ⟨sh, rfl, by simp [retrieved], rfl, rfl⟩
  | cons f fetches ih =>
    have hf := hreq f (by simp)
    have hrest : ∀ g ∈ fetches, g.outcome ≠ .newRequestFails := fun g hg => hreq g (by simp [hg])
    cases ho : f.outcome with
    | newRequestFails => exact absurd ho hf
    | doFails =>
      obtain ⟨sh1, h1, h2, h3, h4⟩ := ih
        { sh with result := { sh.result with Network := sh.result.Network ++ [f.url] } } hrest
      exact ⟨sh1, by simp [fetchAll, goroutine, ho, h1], by simp [retrieved, ho, h2], h3, h4⟩
    | readAllFails =>
      obtain ⟨sh1, h1, h2, h3, h4⟩ := ih sh hrest
      exact ⟨sh1, by simp [fetchAll, goroutine, ho, h1], by simp [retrieved, ho, h2], h3, h4⟩
    | body b =>
      obtain ⟨sh1, h1, h2, h3, h4⟩ := ih { sh with remotes := sh.remotes ++ [b] } hrest
      exact ⟨sh1, by simp [fetchAll, goroutine, ho, h1], by simp [retrieved, ho, h2], h3, h4⟩

/-- The document loop ends without a panic when the provider list is long
enough; its records are those of the line loop over all section lines, and it
never touches the format group. -/
theorem remoteLoop_some (M : Matcher) (providers : List Str) (filters : Option (List Str))
    (remotes : List Str) (k : Nat) (result : Result) (servers : List Server)
    (hk : k + remotes.length ≤ providers.length) :
    ∃ result1 servers1, remoteLoop M providers filters k remotes (result, servers) =
        some (result1, servers1) ∧
      servers1 = lineLoop M filters (sectionLines remotes) servers ∧
      result1.Fromat = result.Fromat ∧ result1.Network = result.Network := by
  induction remotes generalizing k result servers with
  | nil => exact ⟨result, servers, rfl, by simp [sectionLines, lineLoop], rfl, rfl⟩
  | cons d remotes ih =>
    simp only [List.length_cons] at hk
    have hk1 : k + 1 + remotes.length ≤ providers.length := by omega
    rcases surgeFromConf_cases d with ⟨lines, hd⟩ | ⟨e, hd⟩
    · have hlt : k < providers.length := by omega
      have hget : providers[k]? = some providers[k] := List.getElem?_eq_getElem hlt
      obtain ⟨r1, s1, h1, h2, h3, h4⟩ := ih (k + 1)
        { result with Success := result.Success ++ [providers[k]] }
        (lineLoop M filters lines servers) hk1
      refine ⟨r1, s1, ?_, ?_, h3, h4⟩
      · simp only [remoteLoop, hd, hget]
        exact h1
      · rw [h2]
        simp only [sectionLines, hd]
        rw [lineLoop_append]
    · obtain ⟨r1, s1, h1, h2, h3, h4⟩ := ih (k + 1) result servers hk1
      refine ⟨r1, s1, ?_, ?_, h3, h4⟩
      · simp only [remoteLoop, hd]
        exact h1
      · rw [h2]
        simp only [sectionLines, hd]

/-- A run in which every request is built ends without a panic; its final
records are those of the line loop over the section lines of the retrieved
documents, and its format group is empty. -/
theorem main_some {σ : Type} (M : Matcher) (conf : Conf) (gui : SSGui σ) (fetches : List Fetch)
    (hlen : fetches.length ≤ conf.Providers.length)
    (hreq : ∀ f ∈ fetches, f.outcome ≠ .newRequestFails) :
    ∃ out, main M conf gui fetches = some out ∧
      out.servers = lineLoop M conf.Filter (sectionLines (retrieved fetches)) [] ∧
      out.result.Fromat = [] ∧ out.gui = { gui with Configs := out.servers } := by
  obtain ⟨sh1, h1, h2, _, h4⟩ := fetchAll_some fetches
    { result := { Success := [], Fromat := [], Network := [] }, remotes := [] } hreq
  simp only [List.nil_append] at h2
  have hk : 0 + sh1.remotes.length ≤ conf.Providers.length := by
    rw [h2]
    have := retrieved_length fetches
    omega
  obtain ⟨r1, s1, g1, g2, g3, _⟩ := remoteLoop_some M conf.Providers conf.Filter sh1.remotes 0
    sh1.result [] hk
  refine ⟨{ result := r1, servers := s1, gui := { gui with Configs := s1 } }, ?_, ?_, ?_, rfl⟩
  · simp only [main, h1, g1]
  · rw [g2, h2]
  · show r1.Fromat = []
    rw [g3, h4]

theorem IsRun.length_eq {conf : Conf} {fetches : List Fetch} (h : IsRun conf fetches) :
    fetches.length = conf.Providers.length := by
  have := List.Perm.length_eq h
  simpa using this

end MainLoops

/-! ## `surge2SS`: the record of a matching and of a non-matching line -/

section Records

theorem surge2SS_of_match (line : Str) (hm : (FindSubmatch regex line).length = 6) :
    (surge2SS line).Remarks = TrimSpace ((FindSubmatch regex line).getD 1 []) ∧
    (surge2SS line).Server = TrimSpace ((FindSubmatch regex line).getD 2 []) ∧
    (surge2SS line).ServerPort = (Atoi (TrimSpace ((FindSubmatch regex line).getD 3 []))).1 ∧
    (surge2SS line).Method = TrimSpace ((FindSubmatch regex line).getD 4 []) ∧
    (surge2SS line).Password = TrimSpace ((FindSubmatch regex line).getD 5 []) ∧
    (surge2SS line).Timeout = 5 := by
  simp only [surge2SS]
  rw [if_pos hm]
  refine ⟨?_, ?_, ?_, ?_, ?_, ?_⟩ <;> split_ifs <;> rfl

theorem surge2SS_of_nomatch (line : Str) (hm : (FindSubmatch regex line).length ≠ 6) :
    surge2SS line = Server.zero := by
  simp only [surge2SS]
  rw [if_neg hm]

theorem Atoi_bounds (s : Str) :
    -(2 ^ 63 : Int) ≤ (Atoi s).1 ∧ (Atoi s).1 ≤ (2 ^ 63 : Int) - 1 := by
  unfold Atoi
  simp only
  generalize (if s.head? = some '-' ∨ s.head? = some '+' then s.tail else s) = ds
  generalize decide (s.head? = some '-') = neg
  by_cases h1 : ds = []
  · rw [if_pos h1]
    constructor <;> norm_num
  · rw [if_neg h1]
    cases parseDigits 0 ds with
    | none => constructor <;> norm_num
    | some n =>
      have hn : (0 : Int) ≤ n := Int.ofNat_nonneg n
      cases neg with
      | true =>
        by_cases h3 : n > 2 ^ 63
        · simp only [if_true, if_pos h3]
          constructor <;> norm_num
        · simp only [if_true, if_neg h3]
          have : (n : Int) ≤ 2 ^ 63 := by exact_mod_cast Nat.not_lt.mp h3
          constructor <;> linarith
      | false =>
        by_cases h4 : n ≥ 2 ^ 63
        · simp only [Bool.false_eq_true, if_false, if_pos h4]
          constructor <;> norm_num
        · simp only [Bool.false_eq_true, if_false, if_neg h4]
          have : (n : Int) < 2 ^ 63 := by exact_mod_cast Nat.not_le.mp h4
          constructor <;> linarith

theorem foldl_digits_ge (s : Str) (n : Nat) :
    n ≤ s.foldl (fun n c => 10 * n + (c.toNat - 48)) n := by
  induction s generalizing n with
  | nil => simp
  | cons c s ih =>
    simp only [List.foldl_cons]
    calc n ≤ 10 * n + (c.toNat - 48) := by omega
      _ ≤ _ := ih _

/-- The digit loop reports a syntax error at the first character that is not a
digit, when the digits before it do not overflow. -/
theorem parseDigits_nondigit (d : Str) (x : Char) (rest : Str) (n : Nat)
    (hd : ∀ c ∈ d, '0' ≤ c ∧ c ≤ '9') (hx : ¬ ('0' ≤ x ∧ x ≤ '9'))
    (hv : d.foldl (fun n c => 10 * n + (c.toNat - 48)) n < 2 ^ 64) :
    parseDigits n (d ++ x :: rest) = none := by
  induction d generalizing n with
  | nil => simp [parseDigits, hx]
  | cons c d ih =>
    have hc := hd c (by simp)
    simp only [List.foldl_cons] at hv
    have e : 10 * n + (c.toNat - 48) = n * 10 + (c.toNat - 48) := by ring
    have hge := foldl_digits_ge d (10 * n + (c.toNat - 48))
    have hlt : ¬ (n * 10 + (c.toNat - 48) ≥ 2 ^ 64) := by
      rw [← e]
      omega
    simp only [List.cons_append, parseDigits, hc, and_self, if_true]
    rw [if_neg hlt, ← e]
    exact ih _ (fun c hc => hd c (by simp [hc])) hv

/-- `Atoi` gives `0` on a text that is not a numeral, when the digits the text
starts with do not overflow the digit loop. -/
theorem Atoi_not_numeric (s : Str) (hnum : ¬ IsNumeric s)
    (hrun : decimalValue (digitRun s) < 2 ^ 64) : (Atoi s).1 = 0 := by
  have hds : (if s.head? = some '-' ∨ s.head? = some '+' then s.tail else s) = stripSign s := rfl
  unfold Atoi
  simp only [hds]
  by_cases he : stripSign s = []
  · simp [he]
  · rw [if_neg he]
    have hnd : ¬ ∀ c ∈ stripSign s, '0' ≤ c ∧ c ≤ '9' := fun h => hnum ⟨he, h⟩
    -- split at the first character that is not a digit
    have hsplit := List.takeWhile_append_dropWhile
      (fun c => decide ('0' ≤ c ∧ c ≤ '9')) (stripSign s)
    cases hdrop : (stripSign s).dropWhile (fun c => decide ('0' ≤ c ∧ c ≤ '9')) with
    | nil =>
      exfalso
      apply hnd
      intro c hc
      have hall := List.dropWhile_eq_nil_iff.mp hdrop c hc
      simpa using hall
    | cons x rest =>
      have hx : ¬ ('0' ≤ x ∧ x ≤ '9') := by
        have := dropWhile_head_not (fun c => decide ('0' ≤ c ∧ c ≤ '9')) (stripSign s) x
          (by rw [hdrop]; rfl)
        simpa using this
      rw [hdrop] at hsplit
      have hp := parseDigits_nondigit (digitRun s) x rest 0
        (fun c hc => by
          have := List.mem_takeWhile_imp hc
          simpa using this) hx hrun
      unfold digitRun at hp
      rw [hsplit] at hp
      rw [hp]

theorem run_lazy_group_cat_inv (i : Nat) (cls : Char → Bool) (R : Re) (s : Str) (caps : Caps)
    (k : Str → Caps → Option Caps) (r : Caps)
    (h : (Re.cat (Re.group i (Re.star cls false)) R).run s caps k = some r) :
    ∃ u t caps1, s = u ++ t ∧ (∀ c ∈ u, cls c = true) ∧ R.run t caps1 k = some r := by
  rw [run_cat, run_lazy_group] at h
  obtain ⟨u, t, hs, hu, ht⟩ := lazyStar_some_inv cls _ s r h
  exact ⟨u, t, _, hs, hu, ht⟩

theorem run_greedy_cat_inv (cls : Char → Bool) (R : Re) (s : Str) (caps : Caps)
    (k : Str → Caps → Option Caps) (r : Caps)
    (h : (Re.cat (Re.star cls true) R).run s caps k = some r) :
    ∃ u t, s = u ++ t ∧ (∀ c ∈ u, cls c = true) ∧ R.run t caps k = some r := by
  rw [run_cat, run_greedy] at h
  exact greedyStar_some_inv cls _ s r h

theorem run_lit_cat_inv (c : Char) (R : Re) (s : Str) (caps : Caps)
    (k : Str → Caps → Option Caps) (r : Caps)
    (h : (Re.cat (Re.lit c) R).run s caps k = some r) :
    ∃ t, s = c :: t ∧ R.run t caps k = some r := by
  rw [run_cat] at h
  exact run_lit_some_inv c s caps _ r h

theorem run_str_cat_inv (p : Str) (R : Re) (s : Str) (caps : Caps)
    (k : Str → Caps → Option Caps) (r : Caps)
    (h : (Re.cat (Re.str p) R).run s caps k = some r) :
    ∃ t, s = p ++ t ∧ R.run t caps k = some r := by
  rw [run_cat] at h
  exact run_str_some_inv p s caps _ r h

/-- A match of the entry pattern shows the text it went through: a label, an
`=` between whitespace, `custom,` and four fields closed by a comma each. -/
theorem matchHere_regex_inv (w : Str) (c : Caps) (h : matchHere regex w = some c) :
    ∃ g1 w1 w2 g2 g3 g4 g5 rest, (∀ x ∈ w2, reSpace x = true) ∧
      w = g1 ++ (w1 ++ '=' :: (w2 ++ ("custom,".toList ++
        (g2 ++ ',' :: (g3 ++ ',' :: (g4 ++ ',' :: (g5 ++ ',' :: rest))))))) := by
  unfold matchHere regex at h
  simp only [Re.seq] at h
  obtain ⟨g1, t1, _, e1, _, h1⟩ := run_lazy_group_cat_inv _ _ _ _ _ _ _ h
  obtain ⟨w1, t2, e2, _, h2⟩ := run_greedy_cat_inv _ _ _ _ _ _ h1
  obtain ⟨t3, e3, h3⟩ := run_lit_cat_inv _ _ _ _ _ _ h2
  obtain ⟨w2, t4, e4, hw2, h4⟩ := run_greedy_cat_inv _ _ _ _ _ _ h3
  obtain ⟨t5, e5, h5⟩ := run_str_cat_inv _ _ _ _ _ _ h4
  obtain ⟨g2, t6, _, e6, _, h6⟩ := run_lazy_group_cat_inv _ _ _ _ _ _ _ h5
  obtain ⟨t7, e7, h7⟩ := run_lit_cat_inv _ _ _ _ _ _ h6
  obtain ⟨g3, t8, _, e8, _, h8⟩ := run_lazy_group_cat_inv _ _ _ _ _ _ _ h7
  obtain ⟨t9, e9, h9⟩ := run_lit_cat_inv _ _ _ _ _ _ h8
  obtain ⟨g4, t10, _, e10, _, h10⟩ := run_lazy_group_cat_inv _ _ _ _ _ _ _ h9
  obtain ⟨t11, e11, h11⟩ := run_lit_cat_inv _ _ _ _ _ _ h10
  obtain ⟨g5, t12, _, e12, _, h12⟩ := run_lazy_group_cat_inv _ _ _ _ _ _ _ h11
  obtain ⟨t13, e13, _⟩ := run_lit_cat_inv _ _ _ _ _ _ h12
  refine ⟨g1, w1, w2, g2, g3, g4, g5, t13, hw2, ?_⟩
  rw [e1, e2, e3, e4, e5, e6, e7, e8, e9, e10, e11, e12, e13]

theorem shapeAt_of_parts (w2 b : Str) (hw2 : ∀ x ∈ w2, reSpace x = true)
    (hb : 4 ≤ b.count ',') : shapeAt ('=' :: (w2 ++ ("custom,".toList ++ b))) = true := by
  have hdrop : (w2 ++ ("custom,".toList ++ b)).dropWhile reSpace = "custom,".toList ++ b := by
    rw [List.dropWhile_append_of_pos hw2]
    have hc : "custom,".toList = 'c' :: "ustom,".toList := by decide
    rw [hc]
    have hcs : reSpace 'c' = false := by decide
    simp [List.dropWhile, hcs]
  have hlen : "custom,".toList.length = 7 := by decide
  simp only [shapeAt, List.head?_cons, List.tail_cons, hdrop, decide_True, Bool.true_and,
    Bool.and_eq_true, decide_eq_true_eq]
  constructor
  · simp
  · rw [← hlen, List.drop_left]
    exact hb

theorem hasEntryShape_append (pre s : Str) (h : shapeAt s = true) :
    hasEntryShape (pre ++ s) = true := by
  induction pre with
  | nil =>
    cases s with
    | nil => simp [shapeAt] at h
    | cons c cs => simp [hasEntryShape, h]
  | cons a pre ih => simp [hasEntryShape, ih]

/-- A line that matches the entry pattern has the entry shape. -/
theorem hasEntryShape_of_match (line : Str) (hm : (FindSubmatch regex line).length = 6) :
    hasEntryShape line = true := by
  rcases FindSubmatch_cases regex line with ⟨h0, _⟩ | ⟨v, w, hs, hw, _⟩
  · rw [h0] at hm
    simp at hm
  · obtain ⟨g1, w1, w2, g2, g3, g4, g5, rest, hw2, e⟩ := matchHere_regex_inv w _ hw
    have hshape := shapeAt_of_parts w2
      (g2 ++ ',' :: (g3 ++ ',' :: (g4 ++ ',' :: (g5 ++ ',' :: rest)))) hw2 (by
        simp only [List.count_append, List.count_cons_self]
        omega)
    have := hasEntryShape_append (v ++ (g1 ++ w1)) _ hshape
    rw [hs, e]
    simpa only [List.append_assoc] using this

/-- On an entry line the label of the record is the trimmed text before `=`. -/
theorem surge2SS_Remarks_of_entry (L ws H P M W rest : Str)
    (hnl : '\n' ∉ entryLine L ws H P M W rest)
    (hws : ∀ c ∈ ws, reSpace c = true)
    (hL : '=' ∉ L) (hH : ',' ∉ H) (hP : ',' ∉ P) (hM : ',' ∉ M) (hW : ',' ∉ W) :
    (FindSubmatch regex (entryLine L ws H P M W rest)).length = 6 ∧
    (surge2SS (entryLine L ws H P M W rest)).Remarks = TrimSpace L := by
  obtain ⟨L0, Lw, hLs, hLw, hL0⟩ := exists_trailing_split reSpace L
  have hnl2 : ∀ c, c ∈ entryLine L ws H P M W rest → c ≠ '\n' := by
    intro c hc e
    exact hnl (e ▸ hc)
  have hmemL : ∀ c ∈ L0, c ∈ L := by
    intro c hc
    simp [hLs, hc]
  obtain ⟨whole, hfind⟩ := FindSubmatch_regex_entry L0 Lw ws H P M W rest hL0
    (fun c hc e => hL (e ▸ hmemL c hc))
    (fun c hc => hnl2 c (by simp [entryLine, hLs, hc]))
    hLw hws
    (fun c hc e => hH (e ▸ hc)) (fun c hc => hnl2 c (by simp [entryLine, hc]))
    (fun c hc e => hP (e ▸ hc)) (fun c hc => hnl2 c (by simp [entryLine, hc]))
    (fun c hc e => hM (e ▸ hc)) (fun c hc => hnl2 c (by simp [entryLine, hc]))
    (fun c hc e => hW (e ▸ hc)) (fun c hc => hnl2 c (by simp [entryLine, hc]))
  rw [← hLs] at hfind
  have hlen : (FindSubmatch regex (entryLine L ws H P M W rest)).length = 6 := by
    rw [hfind]
    rfl
  refine ⟨hlen, ?_⟩
  rw [(surge2SS_of_match _ hlen).1, hfind]
  simp only [List.getD_cons_succ, List.getD_cons_zero]
  rw [hLs, TrimSpace_append_space]
  intro c hc
  exact isSpace_of_reSpace c (hLw c hc)

theorem TrimSpace_of_space (s : Str) (h : ∀ c ∈ s, isSpace c = true) : TrimSpace s = [] := by
  unfold TrimSpace
  have : s.dropWhile isSpace = [] := List.dropWhile_eq_nil_iff.mpr h
  rw [this]
  rfl

/-- The line loop appends only records with a label. -/
theorem lineLoop_Remarks (M : Matcher) (filters : Option (List Str)) (lines : List Str)
    (servers : List Server) :
    ∀ r ∈ lineLoop M filters lines servers, r ∈ servers ∨ r.Remarks ≠ [] := by
  intro r hr
  by_cases hf : filters = none ∨ filters = some []
  · rw [lineLoop_nofilter M filters hf lines servers] at hr
    rcases List.mem_append.mp hr with h | h
    · exact Or.inl h
    · right
      have := (List.mem_filter.mp h).2
      simpa using this
  · cases filters with
    | none => exact absurd (Or.inl rfl) hf
    | some fs =>
      have hfs : fs ≠ [] := by
        intro e
        exact hf (Or.inr (by rw [e]))
      rw [lineLoop_filters M fs hfs lines servers] at hr
      rcases List.mem_append.mp hr with h | h
      · exact Or.inl h
      · right
        have := (List.mem_filter.mp h).2
        simp only [keeps, Bool.and_eq_true, decide_eq_true_eq] at this
        exact this.1

/-- A line whose record has no label leaves the line loop as it found it. -/
theorem lineLoop_skip (M : Matcher) (filters : Option (List Str)) (l : Str) (lines : List Str)
    (servers : List Server) (h : (surge2SS l).Remarks = []) :
    lineLoop M filters (l :: lines) servers = lineLoop M filters lines servers := by
  rw [lineLoop]
  simp [h]

/-- A pattern that does not compile can be taken out of the filter list without
changing what the filter loop does with a record. -/
theorem filterLoop_erase_invalid (M : Matcher) (bad : Str) (fs1 fs2 : List Str) (res : Server)
    (servers : List Server) (hbad : M bad res.Remarks = none) :
    filterLoop M (fs1 ++ bad :: fs2) res servers = filterLoop M (fs1 ++ fs2) res servers := by
  rw [filterLoop_eq, filterLoop_eq]
  simp [List.any_append, hbad]

/-- Whatever the fetch phase leaves in `remotes` is what it started with and
the retrieved documents, in the order of arrival. -/
theorem fetchAll_remotes (fetches : List Fetch) (sh sh1 : Shared)
    (h : fetchAll fetches sh = some sh1) : sh1.remotes = sh.remotes ++ retrieved fetches := by
  induction fetches generalizing sh with
  | nil =>
    simp only [fetchAll, Option.some.injEq] at h
    simp [retrieved, h]
  | cons f fetches ih =>
    cases ho : f.outcome with
    | newRequestFails => simp [fetchAll, goroutine, ho] at h
    | doFails =>
      simp only [fetchAll, goroutine, ho] at h
      have := ih _ h
      simpa [retrieved, ho] using this
    | readAllFails =>
      simp only [fetchAll, goroutine, ho] at h
      have := ih _ h
      simpa [retrieved, ho] using this
    | body b =>
      simp only [fetchAll, goroutine, ho] at h
      have := ih _ h
      simpa [retrieved, ho] using this

end Records

/-! ## The part of `main` after the fetch phase, and the range of the port -/

section Revision

/-- `main` is its fetch phase followed by `afterFetch`. -/
theorem main_eq_afterFetch {σ : Type} (M : Matcher) (conf : Conf) (gui : SSGui σ)
    (fetches : List Fetch) :
    main M conf gui fetches =
      match fetchAll fetches Shared.init with
      | none => none
      | some sh => afterFetch M conf gui sh := by
  unfold main afterFetch Shared.init
  rfl

/-- On every state of the shared variables with no more documents than
providers, `afterFetch` ends; its records are those of the line loop over the
section lines of the documents, and the configuration it hands back has these
records as `Configs` and every other field as before. -/
theorem afterFetch_some {σ : Type} (M : Matcher) (conf : Conf) (gui : SSGui σ) (sh : Shared)
    (hlen : sh.remotes.length ≤ conf.Providers.length) :
    ∃ out, afterFetch M conf gui sh = some out ∧
      out.servers = lineLoop M conf.Filter (sectionLines sh.remotes) [] ∧
      out.gui.Configs = out.servers ∧ SameButConfigs out.gui gui := by
  obtain ⟨r1, s1, g1, g2, _, _⟩ := remoteLoop_some M conf.Providers conf.Filter sh.remotes 0
    sh.result [] (by omega)
  refine ⟨{ result := r1, servers := s1, gui := { gui with Configs := s1 } }, ?_, g2, rfl, ?_⟩
  · simp only [afterFetch, g1]
  · exact ⟨rfl, rfl, rfl, rfl, rfl, rfl, rfl, rfl, rfl, rfl, rfl, rfl, rfl, rfl, rfl, rfl, rfl, rfl⟩

/-- The digit loop on a string of digits whose value stays below `2^64`. -/
theorem parseDigits_of_digits (ds : Str) (n : Nat) (hd : ∀ c ∈ ds, '0' ≤ c ∧ c ≤ '9')
    (hv : ds.foldl (fun n c => 10 * n + (c.toNat - 48)) n < 2 ^ 64) :
    parseDigits n ds = some (ds.foldl (fun n c => 10 * n + (c.toNat - 48)) n) := by
  induction ds generalizing n with
  | nil => simp [parseDigits]
  | cons c ds ih =>
    have hc := hd c (by simp)
    simp only [List.foldl_cons] at hv ⊢
    have e : 10 * n + (c.toNat - 48) = n * 10 + (c.toNat - 48) := by ring
    have hge := foldl_digits_ge ds (10 * n + (c.toNat - 48))
    have hlt : ¬ (n * 10 + (c.toNat - 48) ≥ 2 ^ 64) := by
      rw [← e]
      omega
    simp only [parseDigits, hc, and_self, if_true]
    rw [if_neg hlt, ← e]
    exact ih _ (fun c hc => hd c (by simp [hc])) hv

/-- A result of the digit loop below `2^64` is the value of a string of digits. -/
theorem parseDigits_some_lt (ds : Str) (n m : Nat) (h : parseDigits n ds = some m)
    (hm : m < 2 ^ 64) :
    (∀ c ∈ ds, '0' ≤ c ∧ c ≤ '9') ∧ m = ds.foldl (fun n c => 10 * n + (c.toNat - 48)) n := by
  induction ds generalizing n with
  | nil =>
    simp only [parseDigits, Option.some.injEq] at h
    simp [h]
  | cons c ds ih =>
    by_cases hc : '0' ≤ c ∧ c ≤ '9'
    · simp only [parseDigits, hc, and_self, if_true] at h
      by_cases hov : n * 10 + (c.toNat - 48) ≥ 2 ^ 64
      · rw [if_pos hov] at h
        simp only [Option.some.injEq] at h
        omega
      · rw [if_neg hov] at h
        obtain ⟨h1, h2⟩ := ih _ h
        have e : 10 * n + (c.toNat - 48) = n * 10 + (c.toNat - 48) := by ring
        refine ⟨?_, ?_⟩
        · intro d hd
          rcases List.mem_cons.mp hd with rfl | hd
          · exact hc
          · exact h1 d hd
        · simp only [List.foldl_cons]
          rw [e]
          exact h2
    · simp [parseDigits, hc] at h

/-- `Atoi` returns a value between 1 and 65535 exactly on the texts that denote
a port. -/
theorem Atoi_in_range_iff (p : Str) :
    (1 ≤ (Atoi p).1 ∧ (Atoi p).1 ≤ 65535) ↔ DenotesPort p := by
  have hds : (if p.head? = some '-' ∨ p.head? = some '+' then p.tail else p) = stripSign p := rfl
  unfold Atoi DenotesPort IsNumeric
  simp only [hds]
  by_cases he : stripSign p = []
  · simp [he]
  · rw [if_neg he]
    cases hp : parseDigits 0 (stripSign p) with
    | none =>
      simp only
      constructor
      · intro h
        exact absurd h.1 (by norm_num)
      · rintro ⟨⟨_, hd⟩, _, h1, h2⟩
        have := parseDigits_of_digits (stripSign p) 0 hd (by
          unfold decimalValue at h2
          omega)
        rw [hp] at this
        exact absurd this (by simp)
    | some n =>
      simp only
      by_cases hneg : p.head? = some '-'
      · simp only [hneg, decide_True, if_true]
        constructor
        · intro h
          exfalso
          have hn : (0 : Int) ≤ n := Int.ofNat_nonneg n
          split_ifs at h
          · exact absurd h.1 (by norm_num)
          · have := h.1
            simp only at this
            omega
        · rintro ⟨_, hh, _⟩
          exact absurd rfl hh
      · simp only [hneg, decide_False, Bool.false_eq_true, if_false]
        by_cases hbig : n ≥ 2 ^ 63
        · rw [if_pos hbig]
          constructor
          · intro h
            exact absurd h.2 (by norm_num)
          · rintro ⟨⟨_, hd⟩, _, h1, h2⟩
            have := parseDigits_of_digits (stripSign p) 0 hd (by
              unfold decimalValue at h2
              omega)
            rw [hp] at this
            simp only [Option.some.injEq] at this
            unfold decimalValue at h2
            omega
        · rw [if_neg hbig]
          have hn64 : n < 2 ^ 64 := by omega
          obtain ⟨hd, hv⟩ := parseDigits_some_lt (stripSign p) 0 n hp hn64
          have hdv : decimalValue (stripSign p) = n := by
            unfold decimalValue
            exact hv.symm
          rw [hdv]
          constructor
          · intro h
            have h1 : (1 : Int) ≤ (n : Int) := h.1
            have h2 : (n : Int) ≤ 65535 := h.2
            refine ⟨⟨he, hd⟩, by simpa using hneg, ?_, ?_⟩
            · exact_mod_cast h1
            · exact_mod_cast h2
          · rintro ⟨_, _, h1, h2⟩
            constructor
            · show (1 : Int) ≤ (n : Int)
              exact_mod_cast h1
            · show (n : Int) ≤ 65535
              exact_mod_cast h2

end Revision

/-! ## Properties of the program -/

/-- C1: on an entry line without a newline, `L = ws custom, H, P, M, W, rest`
with `ws` whitespace of the pattern class, no `=` in `L` and no comma in `H`,
`P`, `M`, `W`, `surge2SS` returns the record with Remarks, Server, Method and
Password the trimmed `L`, `H`, `M`, `W`, Timeout 5, and ServerPort the decimal
value of the trimmed `P` when that is a string of one to five digits. -/
theorem surge2SS_entry (L ws H P M W rest : Str)
    (hnl : '\n' ∉ entryLine L ws H P M W rest)
    (hws : ∀ c ∈ ws, reSpace c = true)
    (hL : '=' ∉ L) (hH : ',' ∉ H) (hP : ',' ∉ P) (hM : ',' ∉ M) (hW : ',' ∉ W) :
    (surge2SS (entryLine L ws H P M W rest)).Remarks = TrimSpace L ∧
    (surge2SS (entryLine L ws H P M W rest)).Server = TrimSpace H ∧
    (surge2SS (entryLine L ws H P M W rest)).Method = TrimSpace M ∧
    (surge2SS (entryLine L ws H P M W rest)).Password = TrimSpace W ∧
    (surge2SS (entryLine L ws H P M W rest)).Timeout = 5 ∧
    (IsPortDigits (TrimSpace P) →
      (surge2SS (entryLine L ws H P M W rest)).ServerPort = (decimalValue (TrimSpace P) : Int)) := by
  obtain ⟨L0, Lw, hLs, hLw, hL0⟩ := exists_trailing_split reSpace L
  have hnl2 : ∀ c, c ∈ entryLine L ws H P M W rest → c ≠ '\n' := by
    intro c hc e
    exact hnl (e ▸ hc)
  have hmemL : ∀ c ∈ L0, c ∈ L := by
    intro c hc
    simp [hLs, hc]
  obtain ⟨whole, hfind⟩ := FindSubmatch_regex_entry L0 Lw ws H P M W rest hL0
    (fun c hc e => hL (e ▸ hmemL c hc))
    (fun c hc => hnl2 c (by simp [entryLine, hLs, hc]))
    hLw hws
    (fun c hc e => hH (e ▸ hc)) (fun c hc => hnl2 c (by simp [entryLine, hc]))
    (fun c hc e => hP (e ▸ hc)) (fun c hc => hnl2 c (by simp [entryLine, hc]))
    (fun c hc e => hM (e ▸ hc)) (fun c hc => hnl2 c (by simp [entryLine, hc]))
    (fun c hc e => hW (e ▸ hc)) (fun c hc => hnl2 c (by simp [entryLine, hc]))
  have hRemarks : TrimSpace L0 = TrimSpace L := by
    rw [hLs, TrimSpace_append_space]
    intro c hc
    exact isSpace_of_reSpace c (hLw c hc)
  rw [← hLs] at hfind
  have hlen : [whole, L0, H, P, M, W].length = 6 := rfl
  simp only [surge2SS, hfind]
  rw [if_pos hlen]
  simp only [List.getD_cons_succ, List.getD_cons_zero]
  refine ⟨?_, ?_, ?_, ?_, ?_, ?_⟩
  · split_ifs <;> simp [hRemarks]
  · split_ifs <;> simp
  · split_ifs <;> simp
  · split_ifs <;> simp
  · split_ifs <;> simp
  · intro hd
    have ha := Atoi_of_digits (TrimSpace P) hd
    split_ifs <;> simp [ha]

/-- Witness of C1: the scenario line of the spec. -/
theorem surge2SS_entry_witness :
    (surge2SS "MyProxy = custom, 1.2.3.4, 8388, aes-256-cfb, hunter2, obfs=http, obfs-host=example.com,".toList).Remarks
      = "MyProxy".toList ∧
    (surge2SS "MyProxy = custom, 1.2.3.4, 8388, aes-256-cfb, hunter2, obfs=http, obfs-host=example.com,".toList).Server
      = "1.2.3.4".toList ∧
    (surge2SS "MyProxy = custom, 1.2.3.4, 8388, aes-256-cfb, hunter2, obfs=http, obfs-host=example.com,".toList).Method
      = "aes-256-cfb".toList ∧
    (surge2SS "MyProxy = custom, 1.2.3.4, 8388, aes-256-cfb, hunter2, obfs=http, obfs-host=example.com,".toList).Password
      = "hunter2".toList ∧
    (surge2SS "MyProxy = custom, 1.2.3.4, 8388, aes-256-cfb, hunter2, obfs=http, obfs-host=example.com,".toList).Timeout
      = 5 ∧
    (surge2SS "MyProxy = custom, 1.2.3.4, 8388, aes-256-cfb, hunter2, obfs=http, obfs-host=example.com,".toList).ServerPort
      = 8388 := by
  have h := surge2SS_entry "MyProxy ".toList " ".toList " 1.2.3.4".toList " 8388".toList
    " aes-256-cfb".toList " hunter2".toList " obfs=http, obfs-host=example.com,".toList
    (by decide) (by decide) (by decide) (by decide) (by decide) (by decide) (by decide)
  have hline : entryLine "MyProxy ".toList " ".toList " 1.2.3.4".toList " 8388".toList
      " aes-256-cfb".toList " hunter2".toList " obfs=http, obfs-host=example.com,".toList =
      "MyProxy = custom, 1.2.3.4, 8388, aes-256-cfb, hunter2, obfs=http, obfs-host=example.com,".toList := by
    decide
  rw [hline] at h
  obtain ⟨h1, h2, h3, h4, h5, h6⟩ := h
  refine ⟨?_, ?_, ?_, ?_, h5, ?_⟩
  · rw [h1]; decide
  · rw [h2]; decide
  · rw [h3]; decide
  · rw [h4]; decide
  · rw [h6 (by decide)]; decide

/-- C2: on a line without a newline that matches the entry pattern, the plugin
fields are those the tokens of the line give: with a token `obfs=V` the Plugin
is `obfs-local` and PluginOpts is `obfs=` and the trimmed `V`, extended by
`;obfs-host=` and the trimmed `H` exactly when there is a token `obfs-host=H`;
without a token `obfs=V` both fields are empty, whatever else the line holds. -/
theorem surge2SS_plugin (line : Str) (hnl : '\n' ∉ line)
    (hm : (FindSubmatch regex line).length = 6) :
    ((surge2SS line).Plugin, (surge2SS line).PluginOpts) = specPlugin line := by
  have hnl2 : ∀ c ∈ line, c ≠ '\n' := by
    intro c hc e
    exact hnl (e ▸ hc)
  obtain ⟨hT0, hT1⟩ := FindSubmatch_tokenRe "obfs".toList line hnl2
  obtain ⟨hH0, hH1⟩ := FindSubmatch_tokenRe "obfs-host".toList line hnl2
  rw [← obfsTypeRegex_eq] at hT0 hT1
  rw [← obfsRegex_eq] at hH0 hH1
  simp only [surge2SS]
  rw [if_pos hm]
  unfold specPlugin
  cases hv : firstToken "obfs".toList line with
  | none =>
    rw [hT0 hv]
    rfl
  | some V =>
    obtain ⟨whole, G, hf, hG⟩ := hT1 V hv
    have hlen : [whole, G].length = 2 := rfl
    rw [hf, if_pos hlen]
    cases hh : firstToken "obfs-host".toList line with
    | none =>
      rw [hH0 hh]
      simp [hG]
    | some Hv =>
      obtain ⟨whole2, G2, hf2, hG2⟩ := hH1 Hv hh
      have hlen2 : [whole2, G2].length = 2 := rfl
      rw [hf2, if_pos hlen2]
      simp [hG, hG2]

/-- Witness of C2: the scenario line of the spec. -/
theorem surge2SS_plugin_witness :
    ((surge2SS "MyProxy = custom, 1.2.3.4, 8388, aes-256-cfb, hunter2, obfs=http, obfs-host=example.com,".toList).Plugin,
     (surge2SS "MyProxy = custom, 1.2.3.4, 8388, aes-256-cfb, hunter2, obfs=http, obfs-host=example.com,".toList).PluginOpts)
      = ("obfs-local".toList, "obfs=http;obfs-host=example.com".toList) := by
  rw [surge2SS_plugin _ (by decide) (by decide)]
  decide

/-- C3: on a document `pre [Proxy] body [Proxy Group] post`, with no `[Proxy]`
in `pre` and no `[Proxy Group]` in `body`, `surgeFromConf` returns without an
error the lines of `body`: the pieces between its newlines, in order, blank
ones kept, so that joining them with a newline gives `body` back. -/
theorem surgeFromConf_section (pre body post : Str)
    (hpre : ¬ "[Proxy]".toList <:+: pre) (hbody : ¬ "[Proxy Group]".toList <:+: body) :
    surgeFromConf (pre ++ "[Proxy]".toList ++ body ++ "[Proxy Group]".toList ++ post) =
      (some (Split body '\n'), none) ∧
    Join (Split body '\n') ['\n'] = body ∧
    (∀ l ∈ Split body '\n', '\n' ∉ l) := by
  obtain ⟨whole, hf⟩ := FindSubmatch_proxyRe pre body post hpre hbody
  refine ⟨?_, Join_Split body '\n', Split_no_sep body '\n'⟩
  have hdoc : pre ++ "[Proxy]".toList ++ body ++ "[Proxy Group]".toList ++ post =
      pre ++ ("[Proxy]".toList ++ (body ++ ("[Proxy Group]".toList ++ post))) := by
    simp only [List.append_assoc]
  rw [hdoc]
  simp only [surgeFromConf, hf]
  rfl

/-- Witness of C3: a document with text before and after the section and a
blank line inside it. -/
theorem surgeFromConf_section_witness :
    surgeFromConf "x\n[Proxy]\nA = custom, h, 1, m, p,\n\nB = direct\n[Proxy Group]\nG = select, A".toList =
      (some ["".toList, "A = custom, h, 1, m, p,".toList, "".toList, "B = direct".toList, "".toList],
        none) := by
  have h := (surgeFromConf_section "x\n".toList "\nA = custom, h, 1, m, p,\n\nB = direct\n".toList
    "\nG = select, A".toList (by decide) (by decide)).1
  have hd : "x\n".toList ++ "[Proxy]".toList ++ "\nA = custom, h, 1, m, p,\n\nB = direct\n".toList ++
      "[Proxy Group]".toList ++ "\nG = select, A".toList =
      "x\n[Proxy]\nA = custom, h, 1, m, p,\n\nB = direct\n[Proxy Group]\nG = select, A".toList := by
    decide
  rw [hd] at h
  rw [h]
  decide

/-- C4: `surgeFromConf` returns an error exactly when the document holds no
`[Proxy]` with a `[Proxy Group]` after it, and then the returned list of lines
is empty; a document with `[Proxy Group]` only before `[Proxy]` is such a one. -/
theorem surgeFromConf_error_iff (doc : Str) :
    ((surgeFromConf doc).2.isSome = true ↔
      ¬ ∃ a b c, doc = a ++ "[Proxy]".toList ++ b ++ "[Proxy Group]".toList ++ c) ∧
    ((surgeFromConf doc).2.isSome = true → (surgeFromConf doc).1 = some []) ∧
    (surgeFromConf "[Proxy Group]\nG = select, A\n[Proxy]\nA = custom, h, 1, m, p,\n".toList).2.isSome
      = true := by
  refine ⟨?_, ?_, by decide⟩
  · rcases FindSubmatch_cases proxyRe doc with ⟨h0, hall⟩ | ⟨v, w, hs, hm, _⟩
    · have hsf : surgeFromConf doc =
          (some [], some "could not match [Proxy] in profile".toList) := by
        simp [surgeFromConf, h0]
      rw [hsf]
      refine ⟨fun _ => ?_, fun _ => rfl⟩
      rintro ⟨a, b, c, hd⟩
      have h1 := hall a ("[Proxy]".toList ++ (b ++ ("[Proxy Group]".toList ++ c)))
        (by rw [hd]; simp only [List.append_assoc])
      have h2 := (matchHere_proxyRe_isSome _).mpr ⟨b, c, rfl⟩
      rw [h1] at h2
      exact absurd h2 (by simp)
    · have hlen : (FindSubmatch proxyRe doc).length = 2 := by
        rw [matchHere_length proxyRe w _ hm, proxyRe_NumSubexp]
      have hsf : surgeFromConf doc =
          (some (Split ((FindSubmatch proxyRe doc).getD 1 []) '\n'), none) := by
        simp [surgeFromConf, hlen]
      rw [hsf]
      refine ⟨fun h => absurd h (by simp), fun h => ?_⟩
      exfalso
      apply h
      obtain ⟨b, c, hw⟩ := (matchHere_proxyRe_isSome w).mp (by rw [hm]; rfl)
      exact ⟨v, b, c, by rw [hs, hw]; simp only [List.append_assoc]⟩
  · intro herr
    rcases surgeFromConf_cases doc with ⟨lines, hl⟩ | ⟨e, hl⟩
    · rw [hl] at herr
      exact absurd herr (by simp)
    · rw [hl]

/-- C5 (the code departs from it): one provider whose document is retrieved
and holds no `[Proxy]` marker. The run records the provider in no group, the
format group `Fromat` included, and produces no record. -/
theorem main_no_section_unrecorded :
    (main literalMatchString { Providers := ["http://a/1".toList], Filter := none } guiExample
      [{ url := "http://a/1".toList,
         outcome := .body "[General]\nloglevel = notify\n".toList }]).map
        (fun o => (o.result, o.servers)) =
      some ({ Success := [], Fromat := [], Network := [] }, []) := by
  decide

/-- C6 (the code departs from it): two providers, the body of the first cannot
be read and the request to the second cannot be sent. Only the second is
recorded: the three groups hold one provider out of two. -/
theorem main_read_failure_unrecorded :
    (main literalMatchString
      { Providers := ["http://a/1".toList, "http://b/2".toList], Filter := none } guiExample
      [{ url := "http://a/1".toList, outcome := .readAllFails },
       { url := "http://b/2".toList, outcome := .doFails }]).map (fun o => o.result) =
      some { Success := [], Fromat := [], Network := ["http://b/2".toList] } := by
  decide

/-- C7 (the code departs from it): providers `[A, B]`, the request to `A` cannot
be sent and `B` returns a document with a section. In either order of arrival
the run records `A`, not `B`, in `Success`. -/
theorem main_success_names_wrong_provider :
    (main literalMatchString
      { Providers := ["http://a/1".toList, "http://b/2".toList], Filter := none } guiExample
      [{ url := "http://a/1".toList, outcome := .doFails },
       { url := "http://b/2".toList,
         outcome := .body "[Proxy]\nX = custom, h, 1, m, p,\n[Proxy Group]\n".toList }]).map
        (fun o => o.result) =
      some { Success := ["http://a/1".toList], Fromat := [], Network := ["http://a/1".toList] } ∧
    (main literalMatchString
      { Providers := ["http://a/1".toList, "http://b/2".toList], Filter := none } guiExample
      [{ url := "http://b/2".toList,
         outcome := .body "[Proxy]\nX = custom, h, 1, m, p,\n[Proxy Group]\n".toList },
       { url := "http://a/1".toList, outcome := .doFails }]).map
        (fun o => o.result) =
      some { Success := ["http://a/1".toList], Fromat := [], Network := ["http://a/1".toList] } := by
  decide

/-- C8 (the code departs from it): provider `A` returns a document without a
section, provider `B` a document with one entry. When both goroutines read
`remotes` before either writes it and `A` writes last, the document of `B` is
lost and the final set is empty; without `A` in the input the final set holds
the record of `B`, as it does when the accesses of each goroutine stay
together. -/
theorem mainSched_removal_changes_records :
    (mainSched literalMatchString
      { Providers := ["http://a/1".toList, "http://b/2".toList], Filter := none } guiExample
      [{ url := "http://a/1".toList, outcome := .body "junk".toList },
       { url := "http://b/2".toList,
         outcome := .body "[Proxy]\nX = custom, h, 1, m, p,\n[Proxy Group]\n".toList }]
      [0, 1, 1, 0]).map (fun o => o.servers) = some [] ∧
    (mainSched literalMatchString
      { Providers := ["http://b/2".toList], Filter := none } guiExample
      [{ url := "http://b/2".toList,
         outcome := .body "[Proxy]\nX = custom, h, 1, m, p,\n[Proxy Group]\n".toList }]
      [0, 0]).map (fun o => o.servers) = some [surge2SS "X = custom, h, 1, m, p,".toList] ∧
    (mainSched literalMatchString
      { Providers := ["http://a/1".toList, "http://b/2".toList], Filter := none } guiExample
      [{ url := "http://a/1".toList, outcome := .body "junk".toList },
       { url := "http://b/2".toList,
         outcome := .body "[Proxy]\nX = custom, h, 1, m, p,\n[Proxy Group]\n".toList }]
      [0, 0, 1, 1]).map (fun o => o.servers) = some [surge2SS "X = custom, h, 1, m, p,".toList] ∧
    (interleave
      [{ url := "http://a/1".toList, outcome := .body "junk".toList },
       { url := "http://b/2".toList,
         outcome := .body "[Proxy]\nX = custom, h, 1, m, p,\n[Proxy Group]\n".toList }]
      [0, 1, 1, 0] ([.ready, .ready], Shared.init)).map (fun st => (st.1, st.2.remotes)) =
      some ([.finished, .finished], ["junk".toList]) := by
  decide

/-- C9: with a non-empty list of filter patterns, the line loop appends, in
line order, exactly the records that the filter keeps, each one once; a record
with a label is kept exactly when some pattern of the list is found in it. -/
theorem filter_retains (M : Matcher) (fs : List Str) (hfs : fs ≠ []) (lines : List Str)
    (servers : List Server) :
    lineLoop M (some fs) lines servers = servers ++ (lines.map surge2SS).filter (keeps M fs) ∧
    (∀ r : Server, r.Remarks ≠ [] →
      (keeps M fs r = true ↔ ∃ f ∈ fs, M f r.Remarks = some true)) := by
  refine ⟨lineLoop_filters M fs hfs lines servers, ?_⟩
  intro r hr
  simp [keeps, hr]

/-- Witness of C9: patterns `US`, `HK` on the labels `US-1`, `JP-1`, `HK-2`. -/
theorem filter_retains_witness :
    (lineLoop literalMatchString (some ["US".toList, "HK".toList])
      ["US-1 = custom, h, 1, m, p,".toList, "JP-1 = custom, h, 1, m, p,".toList,
       "HK-2 = custom, h, 1, m, p,".toList] []).map (fun r => r.Remarks) =
      ["US-1".toList, "HK-2".toList] := by
  rw [(filter_retains literalMatchString ["US".toList, "HK".toList] (by decide)
    ["US-1 = custom, h, 1, m, p,".toList, "JP-1 = custom, h, 1, m, p,".toList,
     "HK-2 = custom, h, 1, m, p,".toList] []).1]
  decide

/-- C10: with an empty or absent filter list, the line loop appends, in line
order, every record with a non-empty label. -/
theorem nofilter_identity (M : Matcher) (lines : List Str) (servers : List Server) :
    lineLoop M none lines servers =
      servers ++ (lines.map surge2SS).filter (fun r => decide (r.Remarks ≠ [])) ∧
    lineLoop M (some []) lines servers =
      servers ++ (lines.map surge2SS).filter (fun r => decide (r.Remarks ≠ [])) :=
  ⟨lineLoop_nofilter M none (Or.inl rfl) lines servers,
    lineLoop_nofilter M (some []) (Or.inr rfl) lines servers⟩

/-- C11: in a run in which every request is built, no record of the final set
has an empty label; an entry line whose label part is empty or whitespace only
gives a record with an empty label, and the line loop appends nothing for it. -/
theorem empty_label_never_emitted {σ : Type} (Mt : Matcher) (conf : Conf) (gui : SSGui σ)
    (fetches : List Fetch) (hrun : IsRun conf fetches)
    (hreq : ∀ f ∈ fetches, f.outcome ≠ .newRequestFails)
    (L ws H P M W rest : Str)
    (hnl : '\n' ∉ entryLine L ws H P M W rest)
    (hws : ∀ c ∈ ws, reSpace c = true) (hLsp : ∀ c ∈ L, isSpace c = true)
    (hH : ',' ∉ H) (hP : ',' ∉ P) (hM : ',' ∉ M) (hW : ',' ∉ W) :
    (∃ out, main Mt conf gui fetches = some out ∧ ∀ r ∈ out.servers, r.Remarks ≠ []) ∧
    (surge2SS (entryLine L ws H P M W rest)).Remarks = [] ∧
    (∀ lines servers, lineLoop Mt conf.Filter (entryLine L ws H P M W rest :: lines) servers =
      lineLoop Mt conf.Filter lines servers) := by
  have hL : '=' ∉ L := by
    intro h
    exact absurd (hLsp '=' h) (by decide)
  have hrem : (surge2SS (entryLine L ws H P M W rest)).Remarks = [] := by
    rw [(surge2SS_Remarks_of_entry L ws H P M W rest hnl hws hL hH hP hM hW).2]
    exact TrimSpace_of_space L hLsp
  refine ⟨?_, hrem, fun lines servers => lineLoop_skip Mt conf.Filter _ lines servers hrem⟩
  obtain ⟨out, hm, hs, _, _⟩ := main_some Mt conf gui fetches (le_of_eq hrun.length_eq) hreq
  refine ⟨out, hm, ?_⟩
  intro r hr
  rw [hs] at hr
  rcases lineLoop_Remarks Mt conf.Filter _ [] r hr with h | h
  · simp at h
  · exact h

/-- Witness of C11: a document whose section holds the line ` = custom, h, 1, m, p,`
and one entry with a label. -/
theorem empty_label_never_emitted_witness :
    (surge2SS " = custom, h, 1, m, p,".toList).Remarks = [] ∧
    (main literalMatchString { Providers := ["http://a/1".toList], Filter := none } guiExample
      [{ url := "http://a/1".toList,
         outcome := .body "[Proxy]\n = custom, h, 1, m, p,\nX = custom, h, 1, m, p,\n[Proxy Group]".toList }]).map
        (fun o => o.servers.map (fun r => r.Remarks)) = some ["X".toList] := by
  obtain ⟨_, h2, _⟩ := empty_label_never_emitted literalMatchString
    { Providers := ["http://a/1".toList], Filter := none } guiExample
    [{ url := "http://a/1".toList,
       outcome := .body "[Proxy]\n = custom, h, 1, m, p,\nX = custom, h, 1, m, p,\n[Proxy Group]".toList }]
    (List.Perm.refl _) (by decide)
    " ".toList " ".toList " h".toList " 1".toList " m".toList " p".toList []
    (by decide) (by decide) (by decide) (by decide) (by decide) (by decide) (by decide)
  have hline : entryLine " ".toList " ".toList " h".toList " 1".toList " m".toList " p".toList [] =
      " = custom, h, 1, m, p,".toList := by decide
  rw [hline] at h2
  exact ⟨h2, by decide⟩

/-- C12, as amended: on a line that matches the entry pattern and whose trimmed
port field is not an optionally signed string of digits, `surge2SS` returns a
record with ServerPort 0, provided the digits the field starts with stay below
`2^64`; label, host, method, password and timeout are the trimmed groups and 5,
as for a numeric port. -/
theorem surge2SS_port_not_numeric (line : Str) (hm : (FindSubmatch regex line).length = 6)
    (hnum : ¬ IsNumeric (TrimSpace ((FindSubmatch regex line).getD 3 [])))
    (hrun : decimalValue (digitRun (TrimSpace ((FindSubmatch regex line).getD 3 []))) < 2 ^ 64) :
    (surge2SS line).ServerPort = 0 ∧
    (surge2SS line).Remarks = TrimSpace ((FindSubmatch regex line).getD 1 []) ∧
    (surge2SS line).Server = TrimSpace ((FindSubmatch regex line).getD 2 []) ∧
    (surge2SS line).Method = TrimSpace ((FindSubmatch regex line).getD 4 []) ∧
    (surge2SS line).Password = TrimSpace ((FindSubmatch regex line).getD 5 []) ∧
    (surge2SS line).Timeout = 5 := by
  obtain ⟨h1, h2, h3, h4, h5, h6⟩ := surge2SS_of_match line hm
  refine ⟨?_, h1, h2, h4, h5, h6⟩
  rw [h3]
  exact Atoi_not_numeric _ hnum hrun

/-- Witness of C12 as amended: the port field `abc`. -/
theorem surge2SS_port_not_numeric_witness :
    (surge2SS "A = custom, h, abc, m, p,".toList).ServerPort = 0 ∧
    (surge2SS "A = custom, h, abc, m, p,".toList).Remarks = "A".toList ∧
    (surge2SS "A = custom, h, abc, m, p,".toList).Timeout = 5 := by
  obtain ⟨h0, h1, _, _, _, h6⟩ := surge2SS_port_not_numeric "A = custom, h, abc, m, p,".toList
    (by decide) (by decide) (by decide)
  refine ⟨h0, ?_, h6⟩
  rw [h1]
  decide

/-- Counterexample to C12 as stated: the port field `99999999999999999999x` is
not numeric, the line matches, and the port of the record is `2^63 - 1`. -/
theorem surge2SS_port_overflow_prefix :
    (FindSubmatch regex "A = custom, h, 99999999999999999999x, m, p,".toList).length = 6 ∧
    ¬ IsNumeric (TrimSpace
      ((FindSubmatch regex "A = custom, h, 99999999999999999999x, m, p,".toList).getD 3 [])) ∧
    (surge2SS "A = custom, h, 99999999999999999999x, m, p,".toList).ServerPort
      = 9223372036854775807 ∧
    (surge2SS "A = custom, h, 99999999999999999999x, m, p,".toList).ServerPort ≠ 0 := by
  decide

/-- C13: a line that does not hold an `=` followed by optional whitespace, the
literal `custom,` and at least four further commas gives the all-zero record,
and the line loop passes over it without appending a record. -/
theorem surge2SS_zero_of_no_shape (line : Str) (h : hasEntryShape line = false) :
    surge2SS line = Server.zero ∧
    (∀ (Mt : Matcher) (filters : Option (List Str)) (lines : List Str) (servers : List Server),
      lineLoop Mt filters (line :: lines) servers = lineLoop Mt filters lines servers) := by
  have hz : surge2SS line = Server.zero := by
    by_cases hm : (FindSubmatch regex line).length = 6
    · rw [hasEntryShape_of_match line hm] at h
      exact absurd h (by simp)
    · exact surge2SS_of_nomatch line hm
  refine ⟨hz, ?_⟩
  intro Mt filters lines servers
  apply lineLoop_skip
  rw [hz]
  rfl

/-- Witness of C13: the empty line, a whitespace-only line, a directive, and an
entry without a comma after the password. -/
theorem surge2SS_zero_of_no_shape_witness :
    surge2SS "".toList = Server.zero ∧ surge2SS "  \t".toList = Server.zero ∧
    surge2SS "DIRECT = direct".toList = Server.zero ∧
    surge2SS "A = custom, h, 1, m, p".toList = Server.zero :=
  ⟨(surge2SS_zero_of_no_shape _ (by decide)).1, (surge2SS_zero_of_no_shape _ (by decide)).1,
    (surge2SS_zero_of_no_shape _ (by decide)).1, (surge2SS_zero_of_no_shape _ (by decide)).1⟩

/-- C14 (the code departs from it): the request for the first provider cannot
be built. The run ends in the panic of line 172, in either order of arrival:
the provider is not recorded in `Network` and the other provider is not served. -/
theorem main_request_failure_panics :
    (main literalMatchString
      { Providers := ["://bad".toList, "http://b/2".toList], Filter := none } guiExample
      [{ url := "://bad".toList, outcome := .newRequestFails },
       { url := "http://b/2".toList,
         outcome := .body "[Proxy]\nX = custom, h, 1, m, p,\n[Proxy Group]\n".toList }]).isNone
      = true ∧
    (main literalMatchString
      { Providers := ["://bad".toList, "http://b/2".toList], Filter := none } guiExample
      [{ url := "http://b/2".toList,
         outcome := .body "[Proxy]\nX = custom, h, 1, m, p,\n[Proxy Group]\n".toList },
       { url := "://bad".toList, outcome := .newRequestFails }]).isNone
      = true := by
  decide

/-- C15: the part of `main` after the fetch phase ends on every state of the
shared variables with no more documents than providers, with the records of
the line loop over the section lines as final list; the configuration it hands
back has exactly this list as `Configs`, whatever `Configs` held before, and
every other field equal to the field of the configuration that was read. The
output of `main` is this one, on the state its fetch phase leaves. -/
theorem merge_replaces_configs {σ : Type} (Mt : Matcher) (conf : Conf) (g : SSGui σ)
    (fetches : List Fetch) (hrun : IsRun conf fetches)
    (hreq : ∀ f ∈ fetches, f.outcome ≠ .newRequestFails) :
    (∀ sh : Shared, sh.remotes.length ≤ conf.Providers.length →
      ∃ out, afterFetch Mt conf g sh = some out ∧
        out.servers = lineLoop Mt conf.Filter (sectionLines sh.remotes) [] ∧
        out.gui.Configs = out.servers ∧ SameButConfigs out.gui g) ∧
    (∃ sh out, fetchAll fetches Shared.init = some sh ∧ afterFetch Mt conf g sh = some out ∧
      main Mt conf g fetches = some out ∧
      out.gui.Configs = out.servers ∧ SameButConfigs out.gui g) := by
  refine ⟨fun sh hlen => afterFetch_some Mt conf g sh hlen, ?_⟩
  obtain ⟨sh, hf, hrem, _, _⟩ := fetchAll_some fetches Shared.init hreq
  have hlen : sh.remotes.length ≤ conf.Providers.length := by
    rw [hrem]
    have h1 := retrieved_length fetches
    have h2 := hrun.length_eq
    simp only [Shared.init, List.nil_append]
    omega
  obtain ⟨out, ha, _, hc, hsame⟩ := afterFetch_some Mt conf g sh hlen
  refine ⟨sh, out, hf, ha, ?_, hc, hsame⟩
  rw [main_eq_afterFetch, hf]
  exact ha

/-- Witness of C15: a configuration that holds two old records, merged with a
run that finds one entry, and with a run that finds none. -/
theorem merge_replaces_configs_witness :
    (main literalMatchString { Providers := ["http://a/1".toList], Filter := none } guiWithOld
      [{ url := "http://a/1".toList,
         outcome := .body "[Proxy]\nX = custom, h, 1, m, p,\n[Proxy Group]".toList }]).map
        (fun o => (o.gui.Configs, o.gui.LocalPort, o.gui.PortableMode)) =
      some ([surge2SS "X = custom, h, 1, m, p,".toList], 1080, true) ∧
    (main literalMatchString { Providers := ["http://a/1".toList], Filter := none } guiWithOld
      [{ url := "http://a/1".toList,
         outcome := .body "[Proxy]\n[Proxy Group]".toList }]).map
        (fun o => (o.gui.Configs, o.gui.LocalPort, o.gui.PortableMode)) =
      some ([], 1080, true) := by
  obtain ⟨_, sh, out, _, _, hm, hc, hsame⟩ := merge_replaces_configs literalMatchString
    { Providers := ["http://a/1".toList], Filter := none } guiWithOld
    [{ url := "http://a/1".toList,
       outcome := .body "[Proxy]\nX = custom, h, 1, m, p,\n[Proxy Group]".toList }]
    (List.Perm.refl _) (by decide)
  obtain ⟨_, sh2, out2, _, _, hm2, hc2, hsame2⟩ := merge_replaces_configs literalMatchString
    { Providers := ["http://a/1".toList], Filter := none } guiWithOld
    [{ url := "http://a/1".toList, outcome := .body "[Proxy]\n[Proxy Group]".toList }]
    (List.Perm.refl _) (by decide)
  have hs : (main literalMatchString { Providers := ["http://a/1".toList], Filter := none }
      guiWithOld
      [{ url := "http://a/1".toList,
         outcome := .body "[Proxy]\nX = custom, h, 1, m, p,\n[Proxy Group]".toList }]).map
        (fun o => o.servers) = some [surge2SS "X = custom, h, 1, m, p,".toList] := by
    decide
  have hs2 : (main literalMatchString { Providers := ["http://a/1".toList], Filter := none }
      guiWithOld
      [{ url := "http://a/1".toList, outcome := .body "[Proxy]\n[Proxy Group]".toList }]).map
        (fun o => o.servers) = some [] := by
    decide
  rw [hm] at hs ⊢
  rw [hm2] at hs2 ⊢
  have e1 : out.servers = [surge2SS "X = custom, h, 1, m, p,".toList] := Option.some.inj hs
  have e2 : out2.servers = [] := Option.some.inj hs2
  obtain ⟨_, _, _, _, _, _, _, _, _, hlp, _, _, hpm, _⟩ := hsame
  obtain ⟨_, _, _, _, _, _, _, _, _, hlp2, _, _, hpm2, _⟩ := hsame2
  constructor
  · show some (out.gui.Configs, out.gui.LocalPort, out.gui.PortableMode) = _
    rw [hc, e1, hlp, hpm]
    rfl
  · show some (out2.gui.Configs, out2.gui.LocalPort, out2.gui.PortableMode) = _
    rw [hc2, e2, hlp2, hpm2]
    rfl

/-- C16: a pattern of the filter list that does not compile counts as a
non-match and nothing more: the run still ends, and its final set is the one
the other patterns of the list select; for every record the filter loop does
what it does without that pattern, a list holding only that pattern retains
nothing, and a later pattern that is found in the label still retains the
record. -/
theorem invalid_pattern_ignored {σ : Type} (Mt : Matcher) (conf : Conf) (gui : SSGui σ)
    (fetches : List Fetch) (hrun : IsRun conf fetches)
    (hreq : ∀ f ∈ fetches, f.outcome ≠ .newRequestFails)
    (bad : Str) (fs1 fs2 : List Str) (hF : conf.Filter = some (fs1 ++ bad :: fs2))
    (hbad : ∀ s, Mt bad s = none) :
    (∃ out, main Mt conf gui fetches = some out ∧
      out.servers =
        ((sectionLines (retrieved fetches)).map surge2SS).filter (keeps Mt (fs1 ++ fs2))) ∧
    (∀ res servers, filterLoop Mt (fs1 ++ bad :: fs2) res servers =
      filterLoop Mt (fs1 ++ fs2) res servers) ∧
    (∀ res servers, filterLoop Mt [bad] res servers = servers) ∧
    (∀ res servers, (∃ f ∈ fs2, Mt f res.Remarks = some true) →
      filterLoop Mt (fs1 ++ bad :: fs2) res servers = servers ++ [res]) := by
  obtain ⟨out, hm, hs, _⟩ := main_some Mt conf gui fetches (le_of_eq hrun.length_eq) hreq
  refine ⟨⟨out, hm, ?_⟩, ?_, ?_, ?_⟩
  · have hk : keeps Mt (fs1 ++ bad :: fs2) = keeps Mt (fs1 ++ fs2) := by
      funext r
      simp [keeps, List.any_append, hbad]
    rw [hs, hF, lineLoop_filters Mt (fs1 ++ bad :: fs2) (by simp), hk]
    rfl
  · intro res servers
    exact filterLoop_erase_invalid Mt bad fs1 fs2 res servers (hbad _)
  · intro res servers
    simp [filterLoop, hbad]
  · rintro res servers ⟨f, hf, hmf⟩
    rw [filterLoop_eq]
    have hany : (fs1 ++ bad :: fs2).any (fun f => Mt f res.Remarks == some true) = true := by
      rw [List.any_eq_true]
      exact ⟨f, by simp [hf], by simp [hmf]⟩
    rw [if_pos hany]

/-- Witness of C16: the filter list `(`, `HK` on the labels `US-1` and `HK-2`. -/
theorem invalid_pattern_ignored_witness :
    (main sampleMatchString
      { Providers := ["http://a/1".toList], Filter := some ["(".toList, "HK".toList] } guiExample
      [{ url := "http://a/1".toList,
         outcome := .body "[Proxy]\nUS-1 = custom, h, 1, m, p,\nHK-2 = custom, h, 1, m, p,\n[Proxy Group]".toList }]).map
        (fun o => o.servers.map (fun r => r.Remarks)) = some ["HK-2".toList] ∧
    filterLoop sampleMatchString ["(".toList, "HK".toList]
      (surge2SS "HK-2 = custom, h, 1, m, p,".toList) [] =
      [surge2SS "HK-2 = custom, h, 1, m, p,".toList] ∧
    filterLoop sampleMatchString ["(".toList]
      (surge2SS "HK-2 = custom, h, 1, m, p,".toList) [] = [] := by
  obtain ⟨_, _, h3, h4⟩ := invalid_pattern_ignored sampleMatchString
    { Providers := ["http://a/1".toList], Filter := some ["(".toList, "HK".toList] } guiExample
    [{ url := "http://a/1".toList,
       outcome := .body "[Proxy]\nUS-1 = custom, h, 1, m, p,\nHK-2 = custom, h, 1, m, p,\n[Proxy Group]".toList }]
    (List.Perm.refl _) (by decide) "(".toList [] ["HK".toList] rfl
    (by intro s; simp [sampleMatchString])
  refine ⟨by decide, ?_, h3 _ _⟩
  exact h4 (surge2SS "HK-2 = custom, h, 1, m, p,".toList) []
    ⟨"HK".toList, by simp, by decide⟩

/-- C17, as amended: on a line that matches the entry pattern the port of the
record lies in the range 1 to 65535 exactly when the trimmed port field
denotes a port (decimal digits, with `+` before them or no sign, whose value is
in that range); in every case the port is an `int` between `-2^63` and
`2^63 - 1`. The same holds of every record in the final set of a run, each of
which is the record of a matching line. No range is enforced. -/
theorem port_in_range_iff {σ : Type} (Mt : Matcher) (conf : Conf) (gui : SSGui σ)
    (fetches : List Fetch) (hrun : IsRun conf fetches)
    (hreq : ∀ f ∈ fetches, f.outcome ≠ .newRequestFails) :
    (∀ line, (FindSubmatch regex line).length = 6 →
      ((1 ≤ (surge2SS line).ServerPort ∧ (surge2SS line).ServerPort ≤ 65535) ↔
        DenotesPort (TrimSpace ((FindSubmatch regex line).getD 3 []))) ∧
      -(2 ^ 63 : Int) ≤ (surge2SS line).ServerPort ∧
      (surge2SS line).ServerPort ≤ (2 ^ 63 : Int) - 1) ∧
    (∃ out, main Mt conf gui fetches = some out ∧
      ∀ r ∈ out.servers, ∃ l, r = surge2SS l ∧ (FindSubmatch regex l).length = 6 ∧
        ((1 ≤ r.ServerPort ∧ r.ServerPort ≤ 65535) ↔
          DenotesPort (TrimSpace ((FindSubmatch regex l).getD 3 []))) ∧
        -(2 ^ 63 : Int) ≤ r.ServerPort ∧ r.ServerPort ≤ (2 ^ 63 : Int) - 1) := by
  have hline : ∀ line, (FindSubmatch regex line).length = 6 →
      ((1 ≤ (surge2SS line).ServerPort ∧ (surge2SS line).ServerPort ≤ 65535) ↔
        DenotesPort (TrimSpace ((FindSubmatch regex line).getD 3 []))) ∧
      -(2 ^ 63 : Int) ≤ (surge2SS line).ServerPort ∧
      (surge2SS line).ServerPort ≤ (2 ^ 63 : Int) - 1 := by
    intro line hm
    have h3 := (surge2SS_of_match line hm).2.2.1
    have hb := Atoi_bounds (TrimSpace ((FindSubmatch regex line).getD 3 []))
    rw [h3]
    exact ⟨Atoi_in_range_iff _, hb.1, hb.2⟩
  refine ⟨hline, ?_⟩
  obtain ⟨out, hm, hs, _, _⟩ := main_some Mt conf gui fetches (le_of_eq hrun.length_eq) hreq
  refine ⟨out, hm, ?_⟩
  intro r hr
  rw [hs] at hr
  have hne : r.Remarks ≠ [] := by
    rcases lineLoop_Remarks Mt conf.Filter _ [] r hr with h | h
    · simp at h
    · exact h
  obtain ⟨l, _, e⟩ := lineLoop_mem Mt conf.Filter _ r hr
  have hmatch : (FindSubmatch regex l).length = 6 := by
    by_contra hno
    apply hne
    rw [e, surge2SS_of_nomatch l hno]
    rfl
  refine ⟨l, e, hmatch, ?_⟩
  rw [e]
  exact hline l hmatch

/-- Witness of C17 as amended: a run over a section with the port fields `8388`
and `70000`. -/
theorem port_in_range_iff_witness :
    (main literalMatchString { Providers := ["http://a/1".toList], Filter := none } guiExample
      [{ url := "http://a/1".toList,
         outcome := .body "[Proxy]\nA = custom, h, 8388, m, p,\nB = custom, h, 70000, m, p,\n[Proxy Group]".toList }]).map
        (fun o => o.servers.map (fun r => r.ServerPort)) = some [8388, 70000] ∧
    (1 ≤ (surge2SS "A = custom, h, 8388, m, p,".toList).ServerPort ∧
      (surge2SS "A = custom, h, 8388, m, p,".toList).ServerPort ≤ 65535) ∧
    ¬ (1 ≤ (surge2SS "B = custom, h, 70000, m, p,".toList).ServerPort ∧
      (surge2SS "B = custom, h, 70000, m, p,".toList).ServerPort ≤ 65535) := by
  obtain ⟨hline, _⟩ := port_in_range_iff literalMatchString
    { Providers := ["http://a/1".toList], Filter := none } guiExample
    [{ url := "http://a/1".toList,
       outcome := .body "[Proxy]\nA = custom, h, 8388, m, p,\nB = custom, h, 70000, m, p,\n[Proxy Group]".toList }]
    (List.Perm.refl _) (by decide)
  refine ⟨by decide, ?_, ?_⟩
  · exact (hline "A = custom, h, 8388, m, p,".toList (by decide)).1.mpr (by decide)
  · intro h
    have := (hline "B = custom, h, 70000, m, p,".toList (by decide)).1.mp h
    exact absurd this (by decide)

/-- Counterexample to C17 as stated: the line `A = custom, h, 70000, m, p,`
matches, its record has the port 70000, above 65535, and the line loop puts the
record in the final set; the line with the port field `abc` gives the port 0. -/
theorem surge2SS_port_out_of_range :
    (FindSubmatch regex "A = custom, h, 70000, m, p,".toList).length = 6 ∧
    (surge2SS "A = custom, h, 70000, m, p,".toList).ServerPort = 70000 ∧
    ¬ ((surge2SS "A = custom, h, 70000, m, p,".toList).ServerPort ≤ 65535) ∧
    lineLoop literalMatchString none ["A = custom, h, 70000, m, p,".toList] [] =
      [surge2SS "A = custom, h, 70000, m, p,".toList] ∧
    (FindSubmatch regex "B = custom, h, abc, m, p,".toList).length = 6 ∧
    ¬ (1 ≤ (surge2SS "B = custom, h, abc, m, p,".toList).ServerPort) := by
  decide

/-- C18 (the code departs from it): two goroutines that both retrieve a
document, or both fail to send, append to the same shared slice. When both
read the slice before either writes it, one of the two entries is lost; when
the accesses of each goroutine stay together, both are kept. -/
theorem interleave_loses_update :
    (interleave
      [{ url := "http://a/1".toList, outcome := .body "docA".toList },
       { url := "http://b/2".toList, outcome := .body "docB".toList }]
      [0, 1, 0, 1] ([.ready, .ready], Shared.init)).map (fun st => (st.1, st.2.remotes)) =
      some ([.finished, .finished], ["docB".toList]) ∧
    (interleave
      [{ url := "http://a/1".toList, outcome := .doFails },
       { url := "http://b/2".toList, outcome := .doFails }]
      [0, 1, 0, 1] ([.ready, .ready], Shared.init)).map (fun st => (st.1, st.2.result.Network)) =
      some ([.finished, .finished], ["http://b/2".toList]) ∧
    (interleave
      [{ url := "http://a/1".toList, outcome := .body "docA".toList },
       { url := "http://b/2".toList, outcome := .body "docB".toList }]
      [0, 0, 1, 1] ([.ready, .ready], Shared.init)).map (fun st => st.2) =
      fetchAll
        [{ url := "http://a/1".toList, outcome := .body "docA".toList },
         { url := "http://b/2".toList, outcome := .body "docB".toList }] Shared.init := by
  decide

/-- C19: the records of a list of documents are the records of its parts, one
after the other, and so are the records of the lines of a section; a line that
does not match the entry pattern takes away nothing but itself. -/
theorem records_concat (Mt : Matcher) (providers : List Str) (filters : Option (List Str))
    (D1 D2 : List Str) (result : Result) (hlen : (D1 ++ D2).length ≤ providers.length) :
    (∃ r12 r1 r2 s1 s2,
      remoteLoop Mt providers filters 0 (D1 ++ D2) (result, []) = some (r12, s1 ++ s2) ∧
      remoteLoop Mt providers filters 0 D1 (result, []) = some (r1, s1) ∧
      remoteLoop Mt providers filters 0 D2 (result, []) = some (r2, s2)) ∧
    (∀ l1 l2, lineLoop Mt filters (l1 ++ l2) [] =
      lineLoop Mt filters l1 [] ++ lineLoop Mt filters l2 []) ∧
    (∀ l1 x l2, (FindSubmatch regex x).length ≠ 6 →
      lineLoop Mt filters (l1 ++ x :: l2) [] = lineLoop Mt filters (l1 ++ l2) []) := by
  have happ : ∀ l1 l2, lineLoop Mt filters (l1 ++ l2) [] =
      lineLoop Mt filters l1 [] ++ lineLoop Mt filters l2 [] := by
    intro l1 l2
    rw [lineLoop_append, lineLoop_acc]
  refine ⟨?_, happ, ?_⟩
  · simp only [List.length_append] at hlen
    obtain ⟨r12, s12, h12, e12, _⟩ := remoteLoop_some Mt providers filters (D1 ++ D2) 0 result []
      (by simp only [List.length_append]; omega)
    obtain ⟨r1, s1, h1, e1, _⟩ := remoteLoop_some Mt providers filters D1 0 result [] (by omega)
    obtain ⟨r2, s2, h2, e2, _⟩ := remoteLoop_some Mt providers filters D2 0 result [] (by omega)
    refine ⟨r12, r1, r2, s1, s2, ?_, h1, h2⟩
    rw [h12, e12, e1, e2, sectionLines_append, happ]
  · intro l1 x l2 hx
    have hz : (surge2SS x).Remarks = [] := by
      rw [surge2SS_of_nomatch x hx]
      rfl
    rw [happ, happ, lineLoop_skip Mt filters x l2 [] hz]

/-- Witness of C19: two documents with one entry each, and a section with a
directive between two entries. -/
theorem records_concat_witness :
    (remoteLoop literalMatchString ["http://a/1".toList, "http://b/2".toList] none 0
      ["[Proxy]\nX = custom, h, 1, m, p,\n[Proxy Group]".toList,
       "[Proxy]\nY = custom, h, 2, m, p,\n[Proxy Group]".toList]
      ({ Success := [], Fromat := [], Network := [] }, [])).map
        (fun st => st.2.map (fun r => r.Remarks)) = some ["X".toList, "Y".toList] ∧
    lineLoop literalMatchString none
      ["X = custom, h, 1, m, p,".toList, "DIRECT = direct".toList, "Y = custom, h, 2, m, p,".toList] [] =
    lineLoop literalMatchString none
      ["X = custom, h, 1, m, p,".toList, "Y = custom, h, 2, m, p,".toList] [] := by
  obtain ⟨_, _, h3⟩ := records_concat literalMatchString
    ["http://a/1".toList, "http://b/2".toList] none
    ["[Proxy]\nX = custom, h, 1, m, p,\n[Proxy Group]".toList]
    ["[Proxy]\nY = custom, h, 2, m, p,\n[Proxy Group]".toList]
    { Success := [], Fromat := [], Network := [] } (by decide)
  refine ⟨by decide, ?_⟩
  exact h3 ["X = custom, h, 1, m, p,".toList] "DIRECT = direct".toList
    ["Y = custom, h, 2, m, p,".toList] (by decide)

/-- C20: in a run the retrieved documents are at most as many as the
providers, they are what the fetch phase leaves in `remotes`, and the document
loop over them ends without indexing past the end of the provider list. -/
theorem provider_index_in_bounds (Mt : Matcher) (conf : Conf) (fetches : List Fetch)
    (hrun : IsRun conf fetches) :
    (retrieved fetches).length ≤ conf.Providers.length ∧
    (∀ sh, fetchAll fetches Shared.init = some sh → sh.remotes = retrieved fetches) ∧
    (∀ k, k < (retrieved fetches).length → ∃ p, conf.Providers[k]? = some p) ∧
    (∀ result servers, ∃ r s, remoteLoop Mt conf.Providers conf.Filter 0 (retrieved fetches)
      (result, servers) = some (r, s)) := by
  have hle : (retrieved fetches).length ≤ conf.Providers.length := by
    have h1 := retrieved_length fetches
    have h2 := hrun.length_eq
    omega
  refine ⟨hle, ?_, ?_, ?_⟩
  · intro sh h
    have := fetchAll_remotes fetches Shared.init sh h
    simpa [Shared.init] using this
  · intro k hk
    have hlt : k < conf.Providers.length := by omega
    exact ⟨conf.Providers[k], List.getElem?_eq_getElem hlt⟩
  · intro result servers
    obtain ⟨r, s, h, _⟩ := remoteLoop_some Mt conf.Providers conf.Filter (retrieved fetches) 0
      result servers (by omega)
    exact ⟨r, s, h⟩

/-- Witness of C20: three providers, one unreachable, one with an unreadable
body, one that returns a document. -/
theorem provider_index_in_bounds_witness :
    (retrieved
      [{ url := "http://a/1".toList, outcome := .doFails },
       { url := "http://b/2".toList, outcome := .readAllFails },
       { url := "http://c/3".toList,
         outcome := .body "[Proxy]\nX = custom, h, 1, m, p,\n[Proxy Group]".toList }]).length ≤ 3 ∧
    ∃ r s, remoteLoop literalMatchString
      ["http://a/1".toList, "http://b/2".toList, "http://c/3".toList] none 0
      (retrieved
        [{ url := "http://a/1".toList, outcome := .doFails },
         { url := "http://b/2".toList, outcome := .readAllFails },
         { url := "http://c/3".toList,
           outcome := .body "[Proxy]\nX = custom, h, 1, m, p,\n[Proxy Group]".toList }])
      ({ Success := [], Fromat := [], Network := [] }, []) = some (r, s) := by
  obtain ⟨h1, _, _, h4⟩ := provider_index_in_bounds literalMatchString
    { Providers := ["http://a/1".toList, "http://b/2".toList, "http://c/3".toList],
      Filter := none }
    [{ url := "http://a/1".toList, outcome := .doFails },
     { url := "http://b/2".toList, outcome := .readAllFails },
     { url := "http://c/3".toList,
       outcome := .body "[Proxy]\nX = custom, h, 1, m, p,\n[Proxy Group]".toList }]
    (List.Perm.refl _)
  exact ⟨h1, h4 _ _⟩

end SSUpdate
